import Mathlib

/-!
# Merkle tree over a flat array: `merkle/merkle.go`

A shallow embedding of the Go package `merkle`:

* a `*Hash` is an `Option Hash` (`none` is the nil pointer, the spec's "Absent");
* a slice `[]*Hash` is a `List (Option Hash)`, a slice `[]int` is a `List Int`;
* a run-time panic of the Go code (index out of range, nil dereference,
  `make` with a negative length) is the `Except.error` of the result;
* the double SHA-256 of the 64 concatenated bytes of two digests is a parameter
  `dh : Hash → Hash → Hash` (the package takes it from `crypto/sha256`);
* `uint(math.Log2(float64(n)))` is `Log2 n`, the exact floor of the binary
  logarithm (`math.Log2` is exact on powers of two, the only arguments a built
  tree gives it in `NodesForVerify`); the code calls it on positive `n` only;
* lengths and indices are far below `2^63`, so `int` arithmetic is unbounded here;
  `nextPowerOfTwoInt64` keeps the 64-bit width for the claim about arbitrary `n`.
  Index variables that the code keeps non-negative are natural numbers: every
  subtraction `t - 1` in the source is guarded by `t` being odd.
-/

namespace Merkle

/-- The run-time failures of the Go code that the model distinguishes. -/
inductive Fault where
  | indexOutOfRange
  | nilDereference
  | negativeLen
  | outOfFuel
  deriving DecidableEq, Repr

/-- Method `IsEqual` of `*Hash`: two nil pointers are equal, a nil and a non-nil
pointer are not, two non-nil pointers are compared by value. -/
def IsEqual {Hash : Type} [DecidableEq Hash] (hash target : Option Hash) : Bool :=
  match hash, target with
  | none, none => true
  | none, some _ => false
  | some _, none => false
  | some a, some b => decide (a = b)

/-- Halving loop behind `Log2`; the first argument bounds the number of halvings. -/
def log2Loop : Nat → Nat → Nat
  | 0, _ => 0
  | fuel + 1, n => if n < 2 then 0 else log2Loop fuel (n / 2) + 1

/-- The value `uint(math.Log2(float64(n)))` for `n ≥ 1`: the floor of the binary
logarithm of `n`. -/
def Log2 (n : Nat) : Nat := log2Loop n n

/-- Function `nextPowerOfTwo`: `n` itself when `n & (n-1) == 0`, else
`1 << (uint(log2 n) + 1)`. The argument is a slice length, so it is not negative;
for `n = 0` Go computes `0 & -1 = 0` and returns `0`, as here. -/
def nextPowerOfTwo (n : Nat) : Nat :=
  if n &&& (n - 1) = 0 then n
  else 1 <<< (Log2 n + 1)

/-- Two's-complement wrap of an integer into the range of Go's 64-bit `int`. -/
def wrap64 (x : Int) : Int := (x + 2 ^ 63) % 2 ^ 64 - 2 ^ 63

/-- Function `nextPowerOfTwo` with the width of Go's 64-bit `int`: the argument is
a non-negative `int` (below `2 ^ 63`), the shift `1 << exponent` wraps. On the slice
lengths that `BuildMerkleTree` passes it is `nextPowerOfTwo`. -/
def nextPowerOfTwoInt64 (n : Nat) : Int :=
  if n &&& (n - 1) = 0 then (n : Int)
  else wrap64 (1 * 2 ^ (Log2 n + 1))

/-- Function `HashMerkleBranches`: both pointers are dereferenced (`left[:]`,
`right[:]`), so a nil argument panics; otherwise the double hash of the
concatenation. -/
def HashMerkleBranches {Hash : Type} (dh : Hash → Hash → Hash)
    (left right : Option Hash) : Except Fault Hash :=
  match left, right with
  | some l, some r => .ok (dh l r)
  | _, _ => .error .nilDereference

/-- Go's `copy(dst, src)`: the first `min (len dst) (len src)` entries of `dst`
are overwritten by those of `src`. -/
def copy {α : Type} (dst src : List α) : List α :=
  src.take dst.length ++ dst.drop src.length

/-- Assignment `s[i] = v` on a slice: panics when `i` is out of range. -/
def setAt {α : Type} (s : List α) (i : Nat) (v : α) : Except Fault (List α) :=
  if i < s.length then .ok (s.set i v) else .error .indexOutOfRange

/-- Read `s[i]` on a slice: panics when `i` is out of range. -/
def getAt {α : Type} (s : List α) (i : Nat) : Except Fault α :=
  match s[i]? with
  | some v => .ok v
  | none => .error .indexOutOfRange

/-- The loop `for i := 0; i < arraySize-1; i += 2 { ... ; offset++ }` of
`BuildMerkleTree`, from the state `(i, offset, merkles)`. The first argument
bounds the number of iterations left. -/
def buildLoop {Hash : Type} (dh : Hash → Hash → Hash) (arraySize : Int) :
    Nat → Nat → Nat → List (Option Hash) → Except Fault (List (Option Hash))
  | 0, i, _, merkles =>
    if (i : Int) < arraySize - 1 then .error .outOfFuel else .ok merkles
  | fuel + 1, i, offset, merkles =>
    if (i : Int) < arraySize - 1 then
      match getAt merkles i with
      | .error e => .error e
      | .ok none =>
        match setAt merkles offset none with
        | .error e => .error e
        | .ok merkles1 => buildLoop dh arraySize fuel (i + 2) (offset + 1) merkles1
      | .ok (some l) =>
        match getAt merkles (i + 1) with
        | .error e => .error e
        | .ok none =>
          match HashMerkleBranches dh (some l) (some l) with
          | .error e => .error e
          | .ok newHash =>
            match setAt merkles offset (some newHash) with
            | .error e => .error e
            | .ok merkles1 => buildLoop dh arraySize fuel (i + 2) (offset + 1) merkles1
        | .ok (some r) =>
          match HashMerkleBranches dh (some l) (some r) with
          | .error e => .error e
          | .ok newHash =>
            match setAt merkles offset (some newHash) with
            | .error e => .error e
            | .ok merkles1 => buildLoop dh arraySize fuel (i + 2) (offset + 1) merkles1
    else .ok merkles

/-- Function `BuildMerkleTree`. `make([]*Hash, arraySize)` panics for a negative
size (the empty input); the loop gets `arraySize` iterations, more than the
`(arraySize - 1) / 2` it runs. -/
def BuildMerkleTree {Hash : Type} (dh : Hash → Hash → Hash)
    (hashes : List (Option Hash)) : Except Fault (List (Option Hash)) :=
  let nextPoT := nextPowerOfTwo hashes.length
  let arraySize : Int := (nextPoT : Int) * 2 - 1
  if arraySize < 0 then .error .negativeLen
  else
    let merkles : List (Option Hash) := List.replicate arraySize.toNat none
    let merkles := copy merkles hashes
    buildLoop dh arraySize arraySize.toNat 0 nextPoT merkles

/-- The search loop of `NodesForVerify`: the first index of `merkles`, counted
from `i`, whose entry `IsEqual` the target; `none` is the `-1` of the source. -/
def findTarget {Hash : Type} [DecidableEq Hash] (target : Option Hash) :
    Nat → List (Option Hash) → Option Nat
  | _, [] => none
  | i, h :: rest => if IsEqual h target then some i else findTarget target (i + 1) rest

/-- State of the level loop of `NodesForVerify`. -/
structure WalkState (Hash : Type) where
  offset : Nat
  indexInEachLevel : List Nat
  indexesOfVerifyNodes : List Int
  verifyNodes : List (Option Hash)

/-- The loop `for i := 1; i < int(numOfVerifyNodes-1); i++ { ... }` of
`NodesForVerify`, from loop variable `i`. The first argument bounds the number
of iterations left. -/
def walkLoop {Hash : Type} (merkles : List (Option Hash))
    (numOfVerifyNodes numOfLeafNodes : Nat) :
    Nat → Nat → WalkState Hash → Except Fault (WalkState Hash)
  | 0, i, st => if i < numOfVerifyNodes - 1 then .error .outOfFuel else .ok st
  | fuel + 1, i, st =>
    if i < numOfVerifyNodes - 1 then
      match getAt st.indexInEachLevel (i - 1) with
      | .error e => .error e
      | .ok t =>
        match setAt st.indexInEachLevel i (if t % 2 = 0 then t / 2 else (t - 1) / 2) with
        | .error e => .error e
        | .ok lv =>
          match getAt lv i with
          | .error e => .error e
          | .ok q =>
            match setAt st.indexesOfVerifyNodes i
                (if q % 2 = 0 then ((st.offset + q + 1 : Nat) : Int)
                 else ((st.offset + q - 1 : Nat) : Int)) with
            | .error e => .error e
            | .ok ix =>
              match getAt ix i with
              | .error e => .error e
              | .ok p =>
                if p < 0 then .error .indexOutOfRange
                else
                  match getAt merkles p.toNat with
                  | .error e => .error e
                  | .ok v =>
                    match setAt st.verifyNodes i v with
                    | .error e => .error e
                    | .ok vn =>
                      walkLoop merkles numOfVerifyNodes numOfLeafNodes fuel (i + 1)
                        { offset := st.offset + numOfLeafNodes / (i * 2)
                          indexInEachLevel := lv
                          indexesOfVerifyNodes := ix
                          verifyNodes := vn }
    else .ok st

/-- Lines 142-192 of `NodesForVerify`: everything after the search, for a target
found at `indexOfTarget` (the leaf level, the level loop when
`numOfVerifyNodes > 2`, then the root entry). -/
def nodesFromIndex {Hash : Type} (merkles : List (Option Hash)) (indexOfTarget : Nat) :
    Except Fault (List Int × List (Option Hash)) :=
  let numOfVerifyNodes := Log2 (merkles.length + 1)
  let numOfLeafNodes := (merkles.length + 1) / 2
  let indexesOfVerifyNodes : List Int := List.replicate numOfVerifyNodes 0
  let verifyNodes : List (Option Hash) := List.replicate numOfVerifyNodes none
  let sib := if indexOfTarget % 2 = 0 then indexOfTarget + 1 else indexOfTarget - 1
  match setAt indexesOfVerifyNodes 0 (sib : Int) with
  | .error e => .error e
  | .ok ix0 =>
    match getAt merkles sib with
    | .error e => .error e
    | .ok v0 =>
      match setAt verifyNodes 0 v0 with
      | .error e => .error e
      | .ok vn0 =>
        let walked : Except Fault (WalkState Hash) :=
          if numOfVerifyNodes > 2 then
            match setAt (List.replicate (numOfVerifyNodes - 1) 0) 0 indexOfTarget with
            | .error e => .error e
            | .ok lv0 =>
              walkLoop merkles numOfVerifyNodes numOfLeafNodes numOfVerifyNodes 1
                { offset := numOfLeafNodes
                  indexInEachLevel := lv0
                  indexesOfVerifyNodes := ix0
                  verifyNodes := vn0 }
          else
            .ok { offset := numOfLeafNodes
                  indexInEachLevel := []
                  indexesOfVerifyNodes := ix0
                  verifyNodes := vn0 }
        match walked with
        | .error e => .error e
        | .ok st =>
          match setAt st.indexesOfVerifyNodes (numOfVerifyNodes - 1)
              ((merkles.length : Int) - 1) with
          | .error e => .error e
          | .ok ix =>
            match getAt merkles (merkles.length - 1) with
            | .error e => .error e
            | .ok root =>
              match setAt st.verifyNodes (numOfVerifyNodes - 1) root with
              | .error e => .error e
              | .ok vn => .ok (ix, vn)

/-- Function `NodesForVerify`. The result `none` is the pair `nil, nil` returned
when the target is not found; `some (indexes, nodes)` is a proof. -/
def NodesForVerify {Hash : Type} [DecidableEq Hash] (target : Option Hash)
    (merkles : List (Option Hash)) :
    Except Fault (Option (List Int × List (Option Hash))) :=
  match findTarget target 0 merkles with
  | none => .ok none
  | some indexOfTarget =>
    match nodesFromIndex merkles indexOfTarget with
    | .error e => .error e
    | .ok proof => .ok (some proof)

/-- The `range` loop of `VerifyLeafToRoot` from index `i`, where `rest` is the
part of `verifyNodes` from `i` on and `n = len(verifyNodes)`. Falling off the
end of the loop returns `false`. -/
def verifyLoop {Hash : Type} [DecidableEq Hash] (dh : Hash → Hash → Hash)
    (indexesOfVerifyNodes : List Int) (n : Nat) :
    Nat → List (Option Hash) → Option Hash → Except Fault Bool
  | _, [], _ => .ok false
  | i, h :: rest, temp =>
    if i = n - 1 then .ok (IsEqual temp h)
    else
      match h with
      | some _ =>
        match getAt indexesOfVerifyNodes i with
        | .error e => .error e
        | .ok p =>
          if Int.tmod p 2 = 0 then
            match HashMerkleBranches dh h temp with
            | .error e => .error e
            | .ok t => verifyLoop dh indexesOfVerifyNodes n (i + 1) rest (some t)
          else
            match HashMerkleBranches dh temp h with
            | .error e => .error e
            | .ok t => verifyLoop dh indexesOfVerifyNodes n (i + 1) rest (some t)
      | none =>
        match HashMerkleBranches dh temp temp with
        | .error e => .error e
        | .ok t => verifyLoop dh indexesOfVerifyNodes n (i + 1) rest (some t)

/-- Function `VerifyLeafToRoot`. -/
def VerifyLeafToRoot {Hash : Type} [DecidableEq Hash] (dh : Hash → Hash → Hash)
    (targetHash : Option Hash) (indexesOfVerifyNodes : List Int)
    (verifyNodes : List (Option Hash)) : Except Fault Bool :=
  verifyLoop dh indexesOfVerifyNodes verifyNodes.length 0 verifyNodes targetHash


/-! ## Definitions in the words of the specification -/

/-- Parent of two sibling nodes as the spec states it: Absent when the left child
is Absent, the branch hash of the left child with itself when only the right
child is Absent, the branch hash of both children otherwise. -/
def combine {Hash : Type} (dh : Hash → Hash → Hash) : Option Hash → Option Hash → Option Hash
  | none, _ => none
  | some l, none => some (dh l l)
  | some l, some r => some (dh l r)

/-- The leaf level of the spec: the input padded with Absent up to width `P`. -/
def padLeaves {Hash : Type} (hashes : List (Option Hash)) (P : Nat) : List (Option Hash) :=
  hashes ++ List.replicate (P - hashes.length) none

/-- Merkle root of a level of width `2 ^ k`, as the spec defines it: the root of
a single node is that node, the root of a wider level combines the roots of its
two halves. -/
def levelRoot {Hash : Type} (dh : Hash → Hash → Hash) : Nat → List (Option Hash) → Option Hash
  | 0, level => level.headD none
  | k + 1, level =>
    combine dh (levelRoot dh k (level.take (2 ^ k))) (levelRoot dh k (level.drop (2 ^ k)))

/-- The next level up: consecutive pairs of a level replaced by their parents. -/
def pairUp {Hash : Type} (dh : Hash → Hash → Hash) : List (Option Hash) → List (Option Hash)
  | a :: b :: rest => combine dh a b :: pairUp dh rest
  | _ => []

/-- Start of level `k` in the flat array as the spec states it: the running total
`P + P/2 + ... + P/2^(k-1)` of the sizes of the levels below, `0` for the leaf
level. -/
def levelStart (P : Nat) : Nat → Nat
  | 0 => 0
  | k + 1 => levelStart P k + P / 2 ^ k

/-- Flat index of the sibling of the level-`k` ancestor of leaf `t`, as the spec
states it: the level start plus the in-level index with its lowest bit flipped. -/
def siblingIndex (P t k : Nat) : Nat :=
  levelStart P k + ((t / 2 ^ k) ^^^ 1)

/-- A hash without collisions, used to instantiate the theorems: a digest is
the term that was hashed. -/
inductive Digest where
  | leaf (n : Nat)
  | node (l r : Digest)
  deriving DecidableEq, Repr

/-- Three present leaves over `Digest`, the input of the instances below. -/
def sampleLeaves : List (Option Digest) :=
  [some (Digest.leaf 0), some (Digest.leaf 1), some (Digest.leaf 2)]

/-- Seventeen present leaves `a 0`, ..., `a 16`. -/
def seventeenLeaves {Hash : Type} (a : Nat → Hash) : List (Option Hash) :=
  [some (a 0), some (a 1), some (a 2), some (a 3), some (a 4), some (a 5), some (a 6),
   some (a 7), some (a 8), some (a 9), some (a 10), some (a 11), some (a 12), some (a 13),
   some (a 14), some (a 15), some (a 16)]

/-- The body of `TestVerifyLeafToRoot`: build the tree, ask for the proof of
`target`, verify it. When the target is not found the test passes the two nil
slices on to the verifier. -/
def roundTrip {Hash : Type} [DecidableEq Hash] (dh : Hash → Hash → Hash)
    (hashes : List (Option Hash)) (target : Option Hash) : Except Fault Bool :=
  match BuildMerkleTree dh hashes with
  | .error e => .error e
  | .ok merkles =>
    match NodesForVerify target merkles with
    | .error e => .error e
    | .ok none => VerifyLeafToRoot dh target [] []
    | .ok (some (indexesOfVerifyNodes, verifyNodes)) =>
      VerifyLeafToRoot dh target indexesOfVerifyNodes verifyNodes

/-- One step of the verifier as the spec states it: duplicate the accumulator when
the sibling is Absent; else the sibling goes left when its position is even and
right when it is odd. -/
def accStep {Hash : Type} (dh : Hash → Hash → Hash) (acc : Hash) (p : Int)
    (s : Option Hash) : Hash :=
  match s with
  | none => dh acc acc
  | some v => if p % 2 = 0 then dh v acc else dh acc v

/-- The accumulator of the spec after the steps `(positions i, siblings i)`, as far
as the list of siblings reaches: `acc_0 = leaf`, `acc_(i+1) = accStep acc_i`. -/
def accumulate {Hash : Type} (dh : Hash → Hash → Hash) :
    Hash → List Int → List (Option Hash) → Hash
  | acc, p :: ps, s :: ss => accumulate dh (accStep dh acc p s) ps ss
  | acc, _, _ => acc

/-- The error conditions the spec names. -/
inductive SpecError where
  | EmptyInput
  | LeafNotFound
  | MalformedProof
  | InvalidEncoding
  deriving DecidableEq, Repr

/-- What the caller of a function of the package gets, in the terms of the spec: a
returned value or a reported error. The package has no error results and no
`recover`: a run-time panic ends the program and reports none of the spec errors. -/
def observed {α : Type} : Except Fault α → Option (Except SpecError α)
  | .ok a => some (.ok a)
  | .error _ => none

/-- The flat layout of the spec for a leaf level of width `2 ^ k`: the level, then
each subsequent level, half as wide, up to the single root. -/
def flatTree {Hash : Type} (dh : Hash → Hash → Hash) :
    Nat → List (Option Hash) → List (Option Hash)
  | 0, level => level
  | k + 1, level => level ++ flatTree dh k (pairUp dh level)

/-- Level `k` above a leaf level: the leaf level paired up `k` times. -/
def levelAt {Hash : Type} (dh : Hash → Hash → Hash) :
    Nat → List (Option Hash) → List (Option Hash)
  | 0, level => level
  | k + 1, level => levelAt dh k (pairUp dh level)

/-- Flat indices of the siblings on the way from flat index `c` to the root of a
tree of leaf width `P`: the other node of the pair of `c`, then on from the parent
`P + c / 2`. The first argument bounds the number of levels. -/
def flatPath (P : Nat) : Nat → Nat → List Nat
  | 0, _ => []
  | fuel + 1, c =>
    if c + 2 < 2 * P then
      (if c % 2 = 0 then c + 1 else c - 1) :: flatPath P fuel (P + c / 2)
    else []

/-- The digest of a full subtree of height `k` whose leaves all equal `a`. -/
def dup {Hash : Type} (dh : Hash → Hash → Hash) : Nat → Hash → Hash
  | 0, a => a
  | k + 1, a => dh (dup dh k a) (dup dh k a)


/-- Present nodes form a prefix of a level: left of a present node every node is
present. -/
def PrefixPresent {Hash : Type} (level : List (Option Hash)) : Prop :=
  ∀ i j, i ≤ j → level.getD j none ≠ none → level.getD i none ≠ none


/-! ## Arithmetic of `Log2` and `nextPowerOfTwo` -/

theorem log2Loop_eq (fuel n : Nat) (h : n ≤ fuel) : log2Loop fuel n = Nat.log2 n := by
  induction fuel generalizing n with
  | zero =>
    have : n = 0 := by omega
    subst this
    simp [log2Loop, Nat.log2]
  | succ f ih =>
    rw [log2Loop, Nat.log2]
    by_cases h2 : n < 2
    · have h3 : ¬ 2 ≤ n := by omega
      simp [h2, h3]
    · have h3 : 2 ≤ n := by omega
      simp [h2, h3]
      exact ih _ (by omega)

theorem Log2_eq (n : Nat) : Log2 n = Nat.log2 n := log2Loop_eq n n (le_refl n)

theorem Log2_two_pow (k : Nat) : Log2 (2 ^ k) = k := by
  rw [Log2_eq, Nat.log2_eq_log_two, Nat.log_pow (by norm_num)]

theorem and_pred_eq_zero_iff (n : Nat) (hn : 0 < n) :
    n &&& (n - 1) = 0 ↔ n = 2 ^ Nat.log2 n := by
  have h1 : 2 ^ n.log2 ≤ n := Nat.log2_self_le (by omega)
  have h2 : n < 2 ^ (n.log2 + 1) := Nat.lt_log2_self
  constructor
  · intro h
    by_contra hne
    have h3 : 2 ^ n.log2 ≤ n - 1 := by omega
    have h4 : n - 1 < 2 ^ (n.log2 + 1) := by omega
    have hb : ∀ m, 2 ^ n.log2 ≤ m → m < 2 ^ (n.log2 + 1) → m.testBit n.log2 = true := by
      intro m hm1 hm2
      rw [Nat.testBit_to_div_mod]
      have : m / 2 ^ n.log2 = 1 := by
        apply Nat.div_eq_of_lt_le
        · simpa using hm1
        · rw [pow_succ] at hm2; omega
      simp [this]
    have : (n &&& (n - 1)).testBit n.log2 = true := by
      rw [Nat.testBit_and, hb n h1 h2, hb (n - 1) h3 h4]; rfl
    rw [h] at this
    simp at this
  · intro h
    rw [h]
    generalize n.log2 = k
    simp

/-- For a positive `n`, `nextPowerOfTwo n` is the least power of two that is
at least `n`. -/
theorem nextPowerOfTwo_least (n : Nat) (hn : 0 < n) :
    ∃ k, nextPowerOfTwo n = 2 ^ k ∧ n ≤ 2 ^ k ∧ ∀ j, n ≤ 2 ^ j → k ≤ j := by
  have h1 : 2 ^ n.log2 ≤ n := Nat.log2_self_le (by omega)
  have h2 : n < 2 ^ (n.log2 + 1) := Nat.lt_log2_self
  unfold nextPowerOfTwo
  by_cases h : n &&& (n - 1) = 0
  · rw [if_pos h]
    have hp := (and_pred_eq_zero_iff n hn).1 h
    refine ⟨n.log2, hp, by omega, ?_⟩
    intro j hj
    by_contra hlt
    have : 2 ^ (j + 1) ≤ 2 ^ n.log2 := Nat.pow_le_pow_right (by norm_num) (by omega)
    rw [pow_succ] at this
    have : 0 < 2 ^ j := Nat.two_pow_pos j
    omega
  · rw [if_neg h]
    have hp : n ≠ 2 ^ n.log2 := fun e => h ((and_pred_eq_zero_iff n hn).2 e)
    refine ⟨n.log2 + 1, ?_, by omega, ?_⟩
    · rw [Log2_eq, Nat.shiftLeft_eq, one_mul]
    · intro j hj
      by_contra hlt
      have : 2 ^ j ≤ 2 ^ n.log2 := Nat.pow_le_pow_right (by norm_num) (by omega)
      omega

/-! ## The builder loop -/

theorem getD_eq_of_getElem? {α : Type} (l : List α) (i : Nat) (d v : α)
    (h : l[i]? = some v) : l.getD i d = v := by
  simp [List.getD, h]

theorem buildLoop_step {Hash : Type} (dh : Hash → Hash → Hash) (A : Int)
    (fuel i off : Nat) (m : List (Option Hash))
    (hi : (i : Int) < A - 1) (h1 : i + 1 < m.length) (h2 : off < m.length) :
    buildLoop dh A (fuel + 1) i off m =
      buildLoop dh A fuel (i + 2) (off + 1)
        (m.set off (combine dh (m.getD i none) (m.getD (i + 1) none))) := by
  have h0 : i < m.length := by omega
  have e0 : m[i]? = some m[i] := List.getElem?_eq_getElem h0
  have e1 : m[i + 1]? = some m[i + 1] := List.getElem?_eq_getElem h1
  rw [getD_eq_of_getElem? m i none _ e0, getD_eq_of_getElem? m (i + 1) none _ e1]
  rw [buildLoop, if_pos hi]
  simp only [getAt, setAt, e0, e1, if_pos h2, HashMerkleBranches]
  cases m[i] with
  | none => simp [combine]
  | some l =>
    cases m[i + 1] with
    | none => simp [combine]
    | some r => simp [combine]

/-- Loop invariant of `BuildMerkleTree`: started at iteration `j` on an array of
length `2 * P - 1`, the loop ends, keeps the entries below `P + j` and makes every
later entry `P + j'` the parent of the entries `2 * j'` and `2 * j' + 1`. -/
theorem buildLoop_spec {Hash : Type} (dh : Hash → Hash → Hash) (P : Nat) (hP : 1 ≤ P)
    (fuel : Nat) : ∀ (j : Nat) (m : List (Option Hash)),
    m.length = 2 * P - 1 → j ≤ P - 1 → P - 1 - j ≤ fuel →
    ∃ m', buildLoop dh ((P : Int) * 2 - 1) fuel (2 * j) (P + j) m = .ok m' ∧
      m'.length = 2 * P - 1 ∧
      (∀ i, i < P + j → m'[i]? = m[i]?) ∧
      (∀ j', j ≤ j' → j' < P - 1 →
        m'.getD (P + j') none =
          combine dh (m'.getD (2 * j') none) (m'.getD (2 * j' + 1) none)) := by
  induction fuel with
  | zero =>
    intro j m hm hj hf
    have hjP : j = P - 1 := by omega
    refine ⟨m, ?_, hm, fun _ _ => rfl, ?_⟩
    · rw [buildLoop, if_neg]
      push_cast
      omega
    · intro j' h1 h2
      omega
  | succ f ih =>
    intro j m hm hj hf
    by_cases hjP : j = P - 1
    · refine ⟨m, ?_, hm, fun _ _ => rfl, ?_⟩
      · rw [buildLoop, if_neg]
        push_cast
        omega
      · intro j' h1 h2
        omega
    · have hlt : ((2 * j : Nat) : Int) < (P : Int) * 2 - 1 - 1 := by
        push_cast
        omega
      rw [buildLoop_step dh _ f (2 * j) (P + j) m hlt (by omega) (by omega)]
      obtain ⟨m', hrun, hlen, hkeep, hpar⟩ :=
        ih (j + 1) (m.set (P + j) (combine dh (m.getD (2 * j) none) (m.getD (2 * j + 1) none)))
          (by simp [hm]) (by omega) (by omega)
      have e1 : 2 * (j + 1) = 2 * j + 2 := by ring
      have e2 : P + (j + 1) = P + j + 1 := by ring
      rw [e1, e2] at hrun
      refine ⟨m', hrun, hlen, ?_, ?_⟩
      · intro i hi
        rw [hkeep i (by omega), List.getElem?_set_ne (by omega)]
      · intro j' h1 h2
        by_cases hj' : j' = j
        · subst hj'
          have k0 := hkeep (P + j') (by omega)
          have k1 := hkeep (2 * j') (by omega)
          have k2 := hkeep (2 * j' + 1) (by omega)
          rw [List.getElem?_set_self (by omega)] at k0
          rw [List.getElem?_set_ne (by omega)] at k1 k2
          simp only [List.getD_eq_getElem?_getD, k0, k1, k2, Option.getD_some]
        · exact hpar j' (by omega) h2

theorem copy_length {α : Type} (dst src : List α) (h : src.length ≤ dst.length) :
    (copy dst src).length = dst.length := by
  simp [copy]
  omega

theorem copy_replicate {α : Type} (n : Nat) (a : α) (src : List α) (h : src.length ≤ n) :
    copy (List.replicate n a) src = src ++ List.replicate (n - src.length) a := by
  simp [copy, List.take_of_length_le h]

/-- What `BuildMerkleTree` returns on a non-empty input, with `P` the leaf width:
an array of length `2 * P - 1` that starts with the padded leaves and obeys the
parent rule. -/
theorem BuildMerkleTree_spec {Hash : Type} (dh : Hash → Hash → Hash)
    (hashes : List (Option Hash)) (hN : 1 ≤ hashes.length) :
    ∃ t, BuildMerkleTree dh hashes = .ok t ∧
      t.length = 2 * nextPowerOfTwo hashes.length - 1 ∧
      t.take (nextPowerOfTwo hashes.length) =
        padLeaves hashes (nextPowerOfTwo hashes.length) ∧
      (∀ j, j < nextPowerOfTwo hashes.length - 1 →
        t.getD (nextPowerOfTwo hashes.length + j) none =
          combine dh (t.getD (2 * j) none) (t.getD (2 * j + 1) none)) := by
  obtain ⟨k, hk, hle, -⟩ := nextPowerOfTwo_least hashes.length hN
  have hpos : 0 < 2 ^ k := Nat.two_pow_pos k
  unfold BuildMerkleTree padLeaves
  dsimp only
  generalize nextPowerOfTwo hashes.length = P at *
  have hA : ((P : Int) * 2 - 1).toNat = 2 * P - 1 := by omega
  have hneg : ¬ ((P : Int) * 2 - 1 < 0) := by omega
  rw [if_neg hneg, hA, copy_replicate _ _ _ (by omega)]
  obtain ⟨m', hrun, hlen, hkeep, hpar⟩ :=
    buildLoop_spec dh P (by omega) (2 * P - 1) 0
      (hashes ++ List.replicate (2 * P - 1 - hashes.length) none)
      (by simp; omega) (by omega) (by omega)
  refine ⟨m', hrun, hlen, ?_, ?_⟩
  · apply List.ext_getElem?
    intro i
    by_cases hi : i < P
    · rw [List.getElem?_take_of_lt hi, hkeep i (by omega)]
      by_cases hiN : i < hashes.length
      · rw [List.getElem?_append_left hiN, List.getElem?_append_left hiN]
      · rw [List.getElem?_append_right (by omega), List.getElem?_append_right (by omega),
          List.getElem?_replicate, List.getElem?_replicate, if_pos (by omega), if_pos (by omega)]
    · rw [List.getElem?_eq_none (by simp; omega), List.getElem?_eq_none (by simp; omega)]
  · intro j hj
    exact hpar j (by omega) hj

/-! ## From the parent rule to the root -/

theorem pairUp_take {Hash : Type} (dh : Hash → Hash → Hash) (n : Nat) :
    ∀ l : List (Option Hash), (pairUp dh l).take n = pairUp dh (l.take (2 * n)) := by
  induction n with
  | zero => intro l; simp [pairUp]
  | succ n ih =>
    intro l
    match l with
    | [] => simp [pairUp]
    | [a] => simp [pairUp]
    | a :: b :: rest =>
      have e : 2 * (n + 1) = 2 * n + 1 + 1 := by ring
      rw [e]
      simp only [pairUp, List.take_succ_cons, ih rest]

theorem pairUp_drop {Hash : Type} (dh : Hash → Hash → Hash) (n : Nat) :
    ∀ l : List (Option Hash), (pairUp dh l).drop n = pairUp dh (l.drop (2 * n)) := by
  induction n with
  | zero => intro l; simp
  | succ n ih =>
    intro l
    match l with
    | [] => simp [pairUp]
    | [a] => simp [pairUp]
    | a :: b :: rest =>
      have e : 2 * (n + 1) = 2 * n + 1 + 1 := by ring
      rw [e]
      simp only [pairUp, List.drop_succ_cons, ih rest]

theorem pairUp_length {Hash : Type} (dh : Hash → Hash → Hash) :
    ∀ (n : Nat) (l : List (Option Hash)), l.length = 2 * n → (pairUp dh l).length = n := by
  intro n
  induction n with
  | zero => intro l h; have : l = [] := List.length_eq_zero.1 (by omega); subst this; rfl
  | succ n ih =>
    intro l h
    match l, h with
    | [], h => simp at h
    | [a], h => simp at h; omega
    | a :: b :: rest, h =>
      simp only [pairUp, List.length_cons]
      rw [ih rest (by simp at h; omega)]

theorem pairUp_getD {Hash : Type} (dh : Hash → Hash → Hash) :
    ∀ (j : Nat) (l : List (Option Hash)), 2 * j + 1 < l.length →
      (pairUp dh l)[j]? =
        some (combine dh (l.getD (2 * j) none) (l.getD (2 * j + 1) none)) := by
  intro j
  induction j with
  | zero =>
    intro l h
    match l, h with
    | [], h => simp at h
    | [a], h => simp at h
    | a :: b :: rest, _ => simp [pairUp]
  | succ j ih =>
    intro l h
    match l, h with
    | [], h => simp at h
    | [a], h => simp at h
    | a :: b :: rest, h =>
      have e : 2 * (j + 1) = 2 * j + 1 + 1 := by ring
      have h' : 2 * j + 1 < rest.length := by simp at h; omega
      rw [e]
      simp only [pairUp, List.getElem?_cons_succ, List.getD_cons_succ, ih rest h']

theorem levelRoot_pairUp {Hash : Type} (dh : Hash → Hash → Hash) :
    ∀ (k : Nat) (l : List (Option Hash)), l.length = 2 ^ (k + 1) →
      levelRoot dh k (pairUp dh l) = levelRoot dh (k + 1) l := by
  intro k
  induction k with
  | zero =>
    intro l h
    match l, h with
    | [a, b], _ => rfl
  | succ k ih =>
    intro l h
    have hp : 2 ^ (k + 1 + 1) = 2 * 2 ^ (k + 1) := by ring
    have hpos : 0 < 2 ^ (k + 1) := Nat.two_pow_pos _
    have e : 2 * 2 ^ k = 2 ^ (k + 1) := by ring
    rw [levelRoot, pairUp_take, pairUp_drop, e,
      ih (l.take (2 ^ (k + 1))) (by simp; omega),
      ih (l.drop (2 ^ (k + 1))) (by simp; omega)]
    rfl

/-- In a flat array of length `2 * 2 ^ k - 1` that obeys the parent rule, the last
entry is the root of the leaf segment. -/
theorem flat_root {Hash : Type} (dh : Hash → Hash → Hash) :
    ∀ (k : Nat) (t : List (Option Hash)), t.length = 2 * 2 ^ k - 1 →
      (∀ j, j < 2 ^ k - 1 →
        t.getD (2 ^ k + j) none = combine dh (t.getD (2 * j) none) (t.getD (2 * j + 1) none)) →
      t.getD (2 * 2 ^ k - 2) none = levelRoot dh k (t.take (2 ^ k)) := by
  intro k
  induction k with
  | zero =>
    intro t hlen _
    match t, hlen with
    | [a], _ => rfl
  | succ k ih =>
    intro t hlen hpar
    have hp : 2 ^ (k + 1) = 2 * 2 ^ k := by ring
    have hpos : 0 < 2 ^ k := Nat.two_pow_pos _
    have hd : ∀ i, (t.drop (2 ^ (k + 1))).getD i none = t.getD (2 ^ (k + 1) + i) none := by
      intro i
      simp [List.getD_eq_getElem?_getD, List.getElem?_drop]
    have hup : pairUp dh (t.take (2 ^ (k + 1))) = (t.drop (2 ^ (k + 1))).take (2 ^ k) := by
      apply List.ext_getElem?
      intro j
      by_cases hj : j < 2 ^ k
      · rw [pairUp_getD dh j _ (by simp; omega), List.getElem?_take_of_lt hj,
          List.getElem?_drop, List.getElem?_eq_getElem (by omega)]
        have := hpar j (by omega)
        rw [List.getD_eq_getElem?_getD, List.getElem?_eq_getElem (by omega),
          Option.getD_some] at this
        rw [this]
        congr 2
        · simp [List.getD_eq_getElem?_getD, List.getElem?_take_of_lt (show 2 * j < 2 ^ (k+1) by omega)]
        · simp [List.getD_eq_getElem?_getD, List.getElem?_take_of_lt (show 2 * j + 1 < 2 ^ (k+1) by omega)]
      · rw [List.getElem?_eq_none, List.getElem?_eq_none]
        · simp; omega
        · rw [pairUp_length dh (2 ^ k)]
          · omega
          · simp; omega
    have hrec := ih (t.drop (2 ^ (k + 1))) (by simp; omega) (by
      intro j hj
      rw [hd, hd, hd]
      have := hpar (2 ^ k + j) (by omega)
      have e2 : 2 * (2 ^ k + j) = 2 ^ (k + 1) + 2 * j := by omega
      have e3 : 2 ^ (k + 1) + 2 * j + 1 = 2 ^ (k + 1) + (2 * j + 1) := by omega
      rw [e2, e3] at this
      exact this)
    rw [hd, ← hup, levelRoot_pairUp dh k _ (by simp; omega)] at hrec
    rw [← hrec]
    congr 1
    omega

/-! ## The tree builder: claims C2 to C6 -/

/-- C2: for every input of `N ≥ 1` leaves, `BuildMerkleTree` returns an array of
length `2 * P - 1`, where `P = 2 ^ k` is the smallest power of two that is at least
`N`; that length is odd. -/
theorem BuildMerkleTree_length {Hash : Type} (dh : Hash → Hash → Hash)
    (hashes : List (Option Hash)) (hN : 1 ≤ hashes.length) :
    ∃ t k, BuildMerkleTree dh hashes = .ok t ∧
      hashes.length ≤ 2 ^ k ∧ (∀ j, hashes.length ≤ 2 ^ j → 2 ^ k ≤ 2 ^ j) ∧
      t.length = 2 * 2 ^ k - 1 ∧ t.length % 2 = 1 := by
  obtain ⟨t, hrun, hlen, -, -⟩ := BuildMerkleTree_spec dh hashes hN
  obtain ⟨k, hk, hle, hmin⟩ := nextPowerOfTwo_least hashes.length hN
  have hpos : 0 < 2 ^ k := Nat.two_pow_pos k
  refine ⟨t, k, hrun, hle, ?_, ?_, ?_⟩
  · intro j hj
    exact Nat.pow_le_pow_right (by norm_num) (hmin j hj)
  · rw [hlen, hk]
  · rw [hlen, hk]
    omega

theorem BuildMerkleTree_length_witness :
    1 ≤ sampleLeaves.length ∧
    ∃ t k, BuildMerkleTree Digest.node sampleLeaves = .ok t ∧
      sampleLeaves.length ≤ 2 ^ k ∧ (∀ j, sampleLeaves.length ≤ 2 ^ j → 2 ^ k ≤ 2 ^ j) ∧
      t.length = 2 * 2 ^ k - 1 ∧ t.length % 2 = 1 :=
  ⟨by decide, BuildMerkleTree_length Digest.node sampleLeaves (by decide)⟩

/-- C3: for every input of `N ≥ 1` leaves (entries may be Absent) with
`P = nextPowerOfTwo N`, the built tree holds input leaf `i` at every index
`i < N` and Absent at every index `i` with `N ≤ i < P`. -/
theorem BuildMerkleTree_leaf_segment {Hash : Type} (dh : Hash → Hash → Hash)
    (hashes : List (Option Hash)) (hN : 1 ≤ hashes.length) :
    ∃ t, BuildMerkleTree dh hashes = .ok t ∧
      (∀ i, i < hashes.length → t[i]? = hashes[i]? ∧ i < t.length) ∧
      (∀ i, hashes.length ≤ i → i < nextPowerOfTwo hashes.length → t[i]? = some none) := by
  obtain ⟨t, hrun, hlen, hleaf, -⟩ := BuildMerkleTree_spec dh hashes hN
  obtain ⟨k, hk, hle, -⟩ := nextPowerOfTwo_least hashes.length hN
  have hget : ∀ i, i < nextPowerOfTwo hashes.length →
      t[i]? = (padLeaves hashes (nextPowerOfTwo hashes.length))[i]? := by
    intro i hi
    rw [← hleaf, List.getElem?_take_of_lt hi]
  refine ⟨t, hrun, ?_, ?_⟩
  · intro i hi
    refine ⟨?_, by omega⟩
    rw [hget i (by omega), padLeaves, List.getElem?_append_left hi]
  · intro i hi1 hi2
    rw [hget i hi2, padLeaves, List.getElem?_append_right hi1, List.getElem?_replicate,
      if_pos (by omega)]

theorem BuildMerkleTree_leaf_segment_witness :
    1 ≤ sampleLeaves.length ∧
    ∃ t, BuildMerkleTree Digest.node sampleLeaves = .ok t ∧
      (∀ i, i < sampleLeaves.length → t[i]? = sampleLeaves[i]? ∧ i < t.length) ∧
      (∀ i, sampleLeaves.length ≤ i → i < nextPowerOfTwo sampleLeaves.length →
        t[i]? = some none) :=
  ⟨by decide, BuildMerkleTree_leaf_segment Digest.node sampleLeaves (by decide)⟩

/-- C4: parent rule on the flat array. For every input of `N ≥ 1` leaves with
`P = nextPowerOfTwo N` and every `j < P - 1`, the entries `x` at `2 * j`, `y` at
`2 * j + 1` and `z` at `P + j` of the built tree exist, `z` is Absent exactly when
`x` is, `z` is `HashMerkleBranches x x` when `x` is present and `y` Absent, and `z`
is `HashMerkleBranches x y` when both are present. -/
theorem BuildMerkleTree_parent_rule {Hash : Type} (dh : Hash → Hash → Hash)
    (hashes : List (Option Hash)) (hN : 1 ≤ hashes.length) :
    ∃ t, BuildMerkleTree dh hashes = .ok t ∧
      ∀ j, j < nextPowerOfTwo hashes.length - 1 →
        ∃ x y z, t[2 * j]? = some x ∧ t[2 * j + 1]? = some y ∧
          t[nextPowerOfTwo hashes.length + j]? = some z ∧
          (z = none ↔ x = none) ∧
          (x ≠ none → y = none → ∃ h, HashMerkleBranches dh x x = .ok h ∧ z = some h) ∧
          (x ≠ none → y ≠ none → ∃ h, HashMerkleBranches dh x y = .ok h ∧ z = some h) := by
  obtain ⟨t, hrun, hlen, -, hpar⟩ := BuildMerkleTree_spec dh hashes hN
  refine ⟨t, hrun, ?_⟩
  intro j hj
  have e0 : t[2 * j]? = some t[2 * j] := List.getElem?_eq_getElem (by omega)
  have e1 : t[2 * j + 1]? = some t[2 * j + 1] := List.getElem?_eq_getElem (by omega)
  have e2 : t[nextPowerOfTwo hashes.length + j]? = some t[nextPowerOfTwo hashes.length + j] :=
    List.getElem?_eq_getElem (by omega)
  have hz := hpar j hj
  simp only [List.getD_eq_getElem?_getD, e0, e1, e2, Option.getD_some] at hz
  refine ⟨_, _, _, e0, e1, e2, ?_⟩
  rw [hz]
  cases t[2 * j] with
  | none => simp [combine]
  | some l =>
    cases t[2 * j + 1] with
    | none => simp [combine, HashMerkleBranches]
    | some r => simp [combine, HashMerkleBranches]

theorem BuildMerkleTree_parent_rule_witness :
    1 ≤ sampleLeaves.length ∧
    ∃ t, BuildMerkleTree Digest.node sampleLeaves = .ok t ∧
      ∀ j, j < nextPowerOfTwo sampleLeaves.length - 1 →
        ∃ x y z, t[2 * j]? = some x ∧ t[2 * j + 1]? = some y ∧
          t[nextPowerOfTwo sampleLeaves.length + j]? = some z ∧
          (z = none ↔ x = none) ∧
          (x ≠ none → y = none →
            ∃ h, HashMerkleBranches Digest.node x x = .ok h ∧ z = some h) ∧
          (x ≠ none → y ≠ none →
            ∃ h, HashMerkleBranches Digest.node x y = .ok h ∧ z = some h) :=
  ⟨by decide, BuildMerkleTree_parent_rule Digest.node sampleLeaves (by decide)⟩

/-- C5: for every input of `N ≥ 1` leaves, the last entry of the built tree is the
Merkle root of the leaf level padded with Absent to width `P = 2 ^ k`, the root
being defined by halving: `levelRoot` combines the roots of the two halves. -/
theorem BuildMerkleTree_root {Hash : Type} (dh : Hash → Hash → Hash)
    (hashes : List (Option Hash)) (hN : 1 ≤ hashes.length) :
    ∃ t k, BuildMerkleTree dh hashes = .ok t ∧ nextPowerOfTwo hashes.length = 2 ^ k ∧
      t.getLast? = some (levelRoot dh k (padLeaves hashes (2 ^ k))) := by
  obtain ⟨t, hrun, hlen, hleaf, hpar⟩ := BuildMerkleTree_spec dh hashes hN
  obtain ⟨k, hk, hle, -⟩ := nextPowerOfTwo_least hashes.length hN
  have hpos : 0 < 2 ^ k := Nat.two_pow_pos k
  rw [hk] at hlen hleaf hpar
  refine ⟨t, k, hrun, hk, ?_⟩
  have hroot := flat_root dh k t hlen hpar
  rw [hleaf] at hroot
  rw [← hroot, List.getLast?_eq_getElem?, hlen, List.getD_eq_getElem?_getD]
  have e : 2 * 2 ^ k - 1 - 1 = 2 * 2 ^ k - 2 := by omega
  rw [e, List.getElem?_eq_getElem (by omega)]
  rfl

theorem BuildMerkleTree_root_witness :
    1 ≤ sampleLeaves.length ∧
    ∃ t k, BuildMerkleTree Digest.node sampleLeaves = .ok t ∧
      nextPowerOfTwo sampleLeaves.length = 2 ^ k ∧
      t.getLast? = some (levelRoot Digest.node k (padLeaves sampleLeaves (2 ^ k))) :=
  ⟨by decide, BuildMerkleTree_root Digest.node sampleLeaves (by decide)⟩

/-- C6: for every three present digests `A`, `B`, `C`, the tree built from
`[A, B, C]` is `[A, B, C, Absent, H(A,B), H(C,C), H(H(A,B), H(C,C))]`. -/
theorem BuildMerkleTree_three_leaves {Hash : Type} (dh : Hash → Hash → Hash) (A B C : Hash) :
    BuildMerkleTree dh [some A, some B, some C] =
      .ok [some A, some B, some C, none, some (dh A B), some (dh C C),
        some (dh (dh A B) (dh C C))] ∧
    HashMerkleBranches dh (some A) (some B) = .ok (dh A B) ∧
    HashMerkleBranches dh (some C) (some C) = .ok (dh C C) ∧
    HashMerkleBranches dh (some (dh A B)) (some (dh C C)) = .ok (dh (dh A B) (dh C C)) := by
  refine ⟨?_, rfl, rfl, rfl⟩
  unfold BuildMerkleTree
  simp only [List.length]
  rfl

/-! ## The proof generator -/

theorem setAt_ok {α : Type} (s s' : List α) (i : Nat) (v : α) (h : setAt s i v = .ok s') :
    i < s.length ∧ s' = s.set i v := by
  unfold setAt at h
  split at h
  · injection h with h
    exact ⟨by assumption, h.symm⟩
  · cases h

theorem getAt_ok {α : Type} (s : List α) (i : Nat) (v : α) (h : getAt s i = .ok v) :
    s[i]? = some v := by
  unfold getAt at h
  split at h
  · injection h with h
    subst h
    assumption
  · cases h

/-- The level loop of `NodesForVerify` keeps the lengths of both result slices. -/
theorem walkLoop_lengths {Hash : Type} (merkles : List (Option Hash)) (num nl : Nat)
    (fuel : Nat) : ∀ (i : Nat) (st st' : WalkState Hash),
    walkLoop merkles num nl fuel i st = .ok st' →
      st'.indexesOfVerifyNodes.length = st.indexesOfVerifyNodes.length ∧
      st'.verifyNodes.length = st.verifyNodes.length := by
  induction fuel with
  | zero =>
    intro i st st' h
    rw [walkLoop] at h
    split at h
    · cases h
    · injection h with h
      subst h
      exact ⟨rfl, rfl⟩
  | succ f ih =>
    intro i st st' h
    rw [walkLoop] at h
    split at h
    · split at h
      · cases h
      · split at h
        · cases h
        · split at h
          · cases h
          · split at h
            · cases h
            · rename_i ix hix
              split at h
              · cases h
              · split at h
                · cases h
                · split at h
                  · cases h
                  · split at h
                    · cases h
                    · rename_i vn hvn
                      have h1 := ih _ _ _ h
                      have h2 := setAt_ok _ _ _ _ hix
                      have h3 := setAt_ok _ _ _ _ hvn
                      simp only at h1
                      rw [h2.2, h3.2] at h1
                      simpa using h1
    · injection h with h
      subst h
      exact ⟨rfl, rfl⟩

theorem getLast?_set_last {α : Type} (l : List α) (v : α) (h : l.length - 1 < l.length) :
    (l.set (l.length - 1) v).getLast? = some v := by
  rw [List.getLast?_eq_getElem?, List.length_set, List.getElem?_set_self h]

/-- Shape of what the part of `NodesForVerify` after the search returns. -/
theorem nodesFromIndex_shape {Hash : Type} (merkles : List (Option Hash)) (t : Nat)
    (pos : List Int) (sib : List (Option Hash))
    (h : nodesFromIndex merkles t = .ok (pos, sib)) :
    pos.length = Log2 (merkles.length + 1) ∧ sib.length = Log2 (merkles.length + 1) ∧
      pos.getLast? = some ((merkles.length : Int) - 1) ∧ sib.getLast? = merkles.getLast? := by
  unfold nodesFromIndex at h
  dsimp only at h
  split at h
  · cases h
  · rename_i ix0 hix0
    split at h
    · cases h
    · split at h
      · cases h
      · rename_i vn0 hvn0
        split at h
        · cases h
        · rename_i st hst
          split at h
          · cases h
          · rename_i ix hix
            split at h
            · cases h
            · rename_i root hroot
              split at h
              · cases h
              · rename_i vn hvn
                injection h with h
                injection h with hp hs
                subst hp hs
                have a0 := setAt_ok _ _ _ _ hix0
                have b0 := setAt_ok _ _ _ _ hvn0
                have a1 := setAt_ok _ _ _ _ hix
                have b1 := setAt_ok _ _ _ _ hvn
                have r := getAt_ok _ _ _ hroot
                have hl : st.indexesOfVerifyNodes.length = Log2 (merkles.length + 1) ∧
                    st.verifyNodes.length = Log2 (merkles.length + 1) := by
                  split at hst
                  · split at hst
                    · cases hst
                    · have := walkLoop_lengths _ _ _ _ _ _ _ hst
                      simp only at this
                      rw [a0.2, b0.2] at this
                      simpa using this
                  · injection hst with hst
                    subst hst
                    simp only
                    rw [a0.2, b0.2]
                    simp
                obtain ⟨hl1, hl2⟩ := hl
                rw [a1.2, b1.2]
                refine ⟨by simp [hl1], by simp [hl2], ?_, ?_⟩
                · rw [← hl1]
                  exact getLast?_set_last _ _ (by rw [hl1]; exact hl1 ▸ a1.1)
                · rw [← hl2, getLast?_set_last _ _ (by rw [hl2]; exact hl2 ▸ b1.1),
                    List.getLast?_eq_getElem?, r]

/-- C9: proof shape. Whenever `NodesForVerify` returns a proof for a tree of length
`2 * P - 1` with `P = 2 ^ k`, positions and siblings both have length `k + 1`, the
last position is the last index `2 * P - 2` of the tree and the last sibling entry
is the last entry of the tree, its root. -/
theorem NodesForVerify_shape {Hash : Type} [DecidableEq Hash] (target : Option Hash)
    (merkles : List (Option Hash)) (k : Nat) (pos : List Int) (sib : List (Option Hash))
    (hlen : merkles.length = 2 * 2 ^ k - 1)
    (hrun : NodesForVerify target merkles = .ok (some (pos, sib))) :
    pos.length = k + 1 ∧ sib.length = k + 1 ∧
      pos.getLast? = some ((2 * 2 ^ k - 2 : Nat) : Int) ∧
      sib.getLast? = merkles.getLast? ∧ merkles.getLast? ≠ none := by
  have hpos : 0 < 2 ^ k := Nat.two_pow_pos k
  unfold NodesForVerify at hrun
  split at hrun
  · cases hrun
  · split at hrun
    · cases hrun
    · rename_i proof hproof
      injection hrun with hrun
      injection hrun with hrun
      subst hrun
      obtain ⟨h1, h2, h3, h4⟩ := nodesFromIndex_shape _ _ _ _ hproof
      have e : merkles.length + 1 = 2 ^ (k + 1) := by rw [hlen, pow_succ]; omega
      rw [e, Log2_two_pow] at h1 h2
      refine ⟨h1, h2, ?_, h4, ?_⟩
      · rw [h3, hlen]
        congr 1
        omega
      · rw [List.getLast?_eq_getElem?, List.getElem?_eq_getElem (by omega)]
        simp

theorem NodesForVerify_shape_witness :
    ([some 1, some 2, some 3] : List (Option Nat)).length = 2 * 2 ^ 1 - 1 ∧
    NodesForVerify (some 1) [some 1, some 2, some 3] = .ok (some ([1, 2], [some 2, some 3])) ∧
    ([1, 2] : List Int).length = 1 + 1 ∧ [some 2, some 3].length = 1 + 1 ∧
      ([1, 2] : List Int).getLast? = some ((2 * 2 ^ 1 - 2 : Nat) : Int) ∧
      [some 2, some 3].getLast? = [some 1, some 2, some 3].getLast? ∧
      [some 1, some 2, some 3].getLast? ≠ none :=
  ⟨by decide, rfl,
    NodesForVerify_shape (some 1) [some 1, some 2, some 3] 1 [1, 2] [some 2, some 3]
      (by decide) (by rfl)⟩

/-! ## Where the proof generator leaves the specification: claims C1, C7, C8, C10 -/

theorem Digest.node_ne_left : ∀ x y : Digest, Digest.node x y ≠ x := by
  intro x
  induction x with
  | leaf n => intro y h; cases h
  | node l r ihl _ =>
    intro y h
    injection h with h1 _
    exact ihl r h1

theorem Digest.node_node_ne (x y : Digest) :
    Digest.node (Digest.node x y) x ≠ Digest.node x y :=
  Digest.node_ne_left (Digest.node x y) x

theorem getAt_of_lt {α : Type} [Inhabited α] (s : List α) (i : Nat) (h : i < s.length) :
    getAt s i = .ok (s.getD i default) := by
  simp [getAt, List.getElem?_eq_getElem h, List.getD_eq_getElem?_getD]

theorem nextPowerOfTwo_of_17_32 (n : Nat) (h1 : 17 ≤ n) (h2 : n ≤ 32) :
    nextPowerOfTwo n = 32 := by
  interval_cases n <;> rfl

/-- On an array of 63 entries the part of `NodesForVerify` after the search, for
a target at index 0, records the positions 1, 33, 49, 57, 62 and 62. -/
theorem nodesFromIndex_63 {Hash : Type} (m : List (Option Hash)) (h : m.length = 63) :
    nodesFromIndex m 0 =
      .ok ([1, 33, 49, 57, 62, 62],
        [m.getD 1 none, m.getD 33 none, m.getD 49 none, m.getD 57 none, m.getD 62 none,
          m.getD 62 none]) := by
  simp [nodesFromIndex, h, Log2, log2Loop, walkLoop, setAt, getAt_of_lt, List.replicate]

theorem findTarget_head {Hash : Type} [DecidableEq Hash] (target : Option Hash)
    (rest : List (Option Hash)) : findTarget target 0 (target :: rest) = some 0 := by
  cases target <;> simp [findTarget, IsEqual]

/-- C10, at the input where the code leaves it: for 17 to 32 leaves (leaf width
`P = 32`) and a target found at leaf index `0`, `NodesForVerify` returns the
positions 1, 33, 49, 57, 62, 62. Up to level 3 they are the sibling indices of the
spec; at level 4 the recorded position is 62, the index of the root, and not the
sibling index `32 + 16 + 8 + 4 + 1 = 61`: the offset was advanced by `32 / 6 = 5`
instead of `32 / 8 = 4`. -/
theorem NodesForVerify_level_four_position {Hash : Type} [DecidableEq Hash]
    (dh : Hash → Hash → Hash) (hashes : List (Option Hash)) (target : Option Hash)
    (hN1 : 17 ≤ hashes.length) (hN2 : hashes.length ≤ 32)
    (h0 : hashes[0]? = some target) :
    ∃ t sib, BuildMerkleTree dh hashes = .ok t ∧
      NodesForVerify target t = .ok (some ([1, 33, 49, 57, 62, 62], sib)) ∧
      siblingIndex 32 0 0 = 1 ∧ siblingIndex 32 0 1 = 33 ∧ siblingIndex 32 0 2 = 49 ∧
      siblingIndex 32 0 3 = 57 ∧ siblingIndex 32 0 4 = 61 := by
  obtain ⟨t, hrun, hlen, hleaf, -⟩ := BuildMerkleTree_spec dh hashes (by omega)
  rw [nextPowerOfTwo_of_17_32 _ hN1 hN2] at hlen hleaf
  have hlen63 : t.length = 63 := hlen
  have hhead : t[0]? = some target := by
    have : (t.take 32)[0]? = some target := by
      rw [hleaf, padLeaves, List.getElem?_append_left (by omega), h0]
    rwa [List.getElem?_take_of_lt (by norm_num)] at this
  obtain ⟨rest, rfl⟩ : ∃ rest, t = target :: rest := by
    match t, hhead with
    | x :: rest, hx =>
      simp at hx
      exact ⟨rest, by rw [hx]⟩
  have hnodes := nodesFromIndex_63 (target :: rest) hlen63
  have hfound : NodesForVerify target (target :: rest) =
      .ok (some ([1, 33, 49, 57, 62, 62],
        [(target :: rest).getD 1 none, (target :: rest).getD 33 none,
          (target :: rest).getD 49 none, (target :: rest).getD 57 none,
          (target :: rest).getD 62 none, (target :: rest).getD 62 none])) := by
    unfold NodesForVerify
    rw [findTarget_head]
    simp only [hnodes]
  exact ⟨_, _, hrun, hfound, rfl, rfl, rfl, rfl, rfl⟩

theorem NodesForVerify_level_four_position_witness :
    17 ≤ (seventeenLeaves Digest.leaf).length ∧ (seventeenLeaves Digest.leaf).length ≤ 32 ∧
    (seventeenLeaves Digest.leaf)[0]? = some (some (Digest.leaf 0)) ∧
    ∃ t sib, BuildMerkleTree Digest.node (seventeenLeaves Digest.leaf) = .ok t ∧
      NodesForVerify (some (Digest.leaf 0)) t = .ok (some ([1, 33, 49, 57, 62, 62], sib)) ∧
      siblingIndex 32 0 0 = 1 ∧ siblingIndex 32 0 1 = 33 ∧ siblingIndex 32 0 2 = 49 ∧
      siblingIndex 32 0 3 = 57 ∧ siblingIndex 32 0 4 = 61 :=
  ⟨by decide, by decide, by rfl,
    NodesForVerify_level_four_position Digest.node (seventeenLeaves Digest.leaf)
      (some (Digest.leaf 0)) (by decide) (by decide) (by rfl)⟩

/-- C8, as the code behaves: for every present digest `A` the tree built from `[A]`
is `[A]`, and `NodesForVerify A [A]` does not return a proof: it reads
`merkles[1]` of a one-entry array and panics with an index out of range. -/
theorem NodesForVerify_single_leaf {Hash : Type} [DecidableEq Hash]
    (dh : Hash → Hash → Hash) (A : Hash) :
    BuildMerkleTree dh [some A] = .ok [some A] ∧
    NodesForVerify (some A) [some A] = .error .indexOutOfRange := by
  constructor
  · unfold BuildMerkleTree
    simp only [List.length]
    rfl
  · unfold NodesForVerify
    rw [findTarget_head]
    simp [nodesFromIndex, Log2, log2Loop, setAt, getAt]

/-- C7, at the input where the code leaves it: the search runs over the whole
array. For two present leaves `A`, `B` and the target `H(A,B)`, equal to neither
leaf, the target is found at index 2, the root, and `NodesForVerify` panics with
an index out of range (it reads `merkles[3]`) instead of reporting not-found. -/
theorem NodesForVerify_internal_node_target {Hash : Type} [DecidableEq Hash]
    (dh : Hash → Hash → Hash) (A B : Hash) (hA : dh A B ≠ A) (hB : dh A B ≠ B) :
    BuildMerkleTree dh [some A, some B] = .ok [some A, some B, some (dh A B)] ∧
    some (dh A B) ∉ [some A, some B] ∧
    findTarget (some (dh A B)) 0 [some A, some B, some (dh A B)] = some 2 ∧
    NodesForVerify (some (dh A B)) [some A, some B, some (dh A B)] =
      .error .indexOutOfRange := by
  have hA' : ¬ A = dh A B := fun h => hA h.symm
  have hB' : ¬ B = dh A B := fun h => hB h.symm
  have hfind : findTarget (some (dh A B)) 0 [some A, some B, some (dh A B)] = some 2 := by
    simp [findTarget, IsEqual, hA', hB']
  refine ⟨?_, by simp [hA, hB], hfind, ?_⟩
  · unfold BuildMerkleTree
    simp only [List.length]
    rfl
  · unfold NodesForVerify
    rw [hfind]
    simp [nodesFromIndex, Log2, log2Loop, setAt, getAt]

theorem NodesForVerify_internal_node_target_witness :
    Digest.node (Digest.leaf 0) (Digest.leaf 1) ≠ Digest.leaf 0 ∧
    Digest.node (Digest.leaf 0) (Digest.leaf 1) ≠ Digest.leaf 1 ∧
    BuildMerkleTree Digest.node [some (Digest.leaf 0), some (Digest.leaf 1)] =
      .ok [some (Digest.leaf 0), some (Digest.leaf 1),
        some (Digest.node (Digest.leaf 0) (Digest.leaf 1))] ∧
    some (Digest.node (Digest.leaf 0) (Digest.leaf 1)) ∉
      [some (Digest.leaf 0), some (Digest.leaf 1)] ∧
    findTarget (some (Digest.node (Digest.leaf 0) (Digest.leaf 1))) 0
      [some (Digest.leaf 0), some (Digest.leaf 1),
        some (Digest.node (Digest.leaf 0) (Digest.leaf 1))] = some 2 ∧
    NodesForVerify (some (Digest.node (Digest.leaf 0) (Digest.leaf 1)))
      [some (Digest.leaf 0), some (Digest.leaf 1),
        some (Digest.node (Digest.leaf 0) (Digest.leaf 1))] = .error .indexOutOfRange :=
  ⟨by decide, by decide,
    NodesForVerify_internal_node_target Digest.node (Digest.leaf 0) (Digest.leaf 1)
      (by decide) (by decide)⟩

set_option maxRecDepth 100000 in
set_option maxHeartbeats 4000000 in
/-- C1, at an input where the code leaves it: for seventeen present leaves the
round trip on the first leaf (build, `NodesForVerify`, `VerifyLeafToRoot`) returns
`false`, for every branch hash under which no digest `H(x,y)` equals
`H(H(x,y), x)`. The fifth recorded sibling is the root itself. -/
theorem roundTrip_seventeen_leaves {Hash : Type} [DecidableEq Hash] (dh : Hash → Hash → Hash)
    (a : Nat → Hash) (hfix : ∀ x y, dh (dh x y) x ≠ dh x y) :
    (seventeenLeaves a)[0]? = some (some (a 0)) ∧
    roundTrip dh (seventeenLeaves a) (some (a 0)) = .ok false := by
  refine ⟨rfl, ?_⟩
  simp +decide [roundTrip, BuildMerkleTree, nextPowerOfTwo, Log2, log2Loop, copy, buildLoop,
    getAt, setAt, HashMerkleBranches, seventeenLeaves, NodesForVerify, findTarget, IsEqual,
    nodesFromIndex, walkLoop, VerifyLeafToRoot, verifyLoop, hfix]

theorem roundTrip_seventeen_leaves_witness :
    (∀ x y, Digest.node (Digest.node x y) x ≠ Digest.node x y) ∧
    (seventeenLeaves Digest.leaf)[0]? = some (some (Digest.leaf 0)) ∧
    roundTrip Digest.node (seventeenLeaves Digest.leaf) (some (Digest.leaf 0)) = .ok false :=
  ⟨Digest.node_node_ne,
    roundTrip_seventeen_leaves Digest.node Digest.leaf Digest.node_node_ne⟩

/-! ## The verifier: claims C11 and C12 -/

theorem tmod_two_eq_zero_iff (p : Int) : Int.tmod p 2 = 0 ↔ p % 2 = 0 := by
  constructor
  · intro h
    exact Int.emod_eq_zero_of_dvd (Int.dvd_of_tmod_eq_zero h)
  · intro h
    exact Int.tmod_eq_zero_of_dvd (Int.dvd_of_emod_eq_zero h)

theorem getAt_drop {α : Type} (s : List α) (i : Nat) (h : i < s.length) :
    ∃ p rest, s.drop i = p :: rest ∧ getAt s i = .ok p ∧ s.drop (i + 1) = rest := by
  refine ⟨s[i], s.drop (i + 1), ?_, ?_, rfl⟩
  · exact List.drop_eq_getElem_cons h
  · simp [getAt, List.getElem?_eq_getElem h]

/-- The loop of `VerifyLeafToRoot`, started at index `i` with a present
accumulator, folds the steps of the spec over the entries before the last and
compares the result with the last entry. -/
theorem verifyLoop_eq {Hash : Type} [DecidableEq Hash] (dh : Hash → Hash → Hash)
    (pos : List Int) (n : Nat) :
    ∀ (rest : List (Option Hash)) (i : Nat) (acc : Hash),
      rest ≠ [] → i + rest.length = n → n ≤ pos.length →
      verifyLoop dh pos n i rest (some acc) =
        .ok (IsEqual (some (accumulate dh acc (pos.drop i) rest.dropLast))
          (rest.getLast?.getD none)) := by
  intro rest
  induction rest with
  | nil => intro i acc h; exact absurd rfl h
  | cons h tl ih =>
    intro i acc _ hn hpos
    cases tl with
    | nil =>
      simp only [List.length_cons, List.length_nil] at hn
      unfold verifyLoop
      rw [if_pos (by omega)]
      cases hd : pos.drop i <;> simp [accumulate]
    | cons h2 tl2 =>
      simp only [List.length_cons] at hn
      have hi : i < pos.length := by omega
      obtain ⟨p, ps, hdrop, hget, hnext⟩ := getAt_drop pos i hi
      have hrec := ih (i + 1) (accStep dh acc p h) (by simp)
        (by simp only [List.length_cons]; omega) hpos
      rw [hnext] at hrec
      unfold verifyLoop
      rw [if_neg (by omega)]
      have hlast : (h :: h2 :: tl2).getLast?.getD none = (h2 :: tl2).getLast?.getD none := by
        simp [List.getLast?_cons_cons]
      have hacc : accumulate dh acc (pos.drop i) (h :: h2 :: tl2).dropLast =
          accumulate dh (accStep dh acc p h) ps (h2 :: tl2).dropLast := by
        rw [hdrop]
        simp [List.dropLast, accumulate]
      rw [hlast, hacc, ← hrec]
      cases h with
      | none => simp [HashMerkleBranches, accStep]
      | some v =>
        simp only [hget, HashMerkleBranches, accStep]
        by_cases hp : p % 2 = 0
        · rw [if_pos ((tmod_two_eq_zero_iff p).2 hp), if_pos hp]
        · rw [if_neg (fun e => hp ((tmod_two_eq_zero_iff p).1 e)), if_neg hp]

/-- C11: verifier definition. For every present leaf digest and every proof whose
positions and siblings have the same length `n ≥ 1`, `VerifyLeafToRoot` does not
fail and returns `true` exactly when the accumulator after the first `n - 1` steps
of the spec equals the last recorded value. -/
theorem VerifyLeafToRoot_accumulate {Hash : Type} [DecidableEq Hash]
    (dh : Hash → Hash → Hash) (leaf : Hash) (pos : List Int) (sib : List (Option Hash))
    (hlen : pos.length = sib.length) (hn : 1 ≤ sib.length) :
    ∃ b, VerifyLeafToRoot dh (some leaf) pos sib = .ok b ∧
      (b = true ↔ sib.getLast? = some (some (accumulate dh leaf pos sib.dropLast))) := by
  have hne : sib ≠ [] := by
    intro h
    rw [h] at hn
    simp at hn
  refine ⟨_, verifyLoop_eq dh pos sib.length sib 0 leaf hne (by simp) (by omega), ?_⟩
  rw [List.drop_zero]
  obtain ⟨l, hl⟩ : ∃ l, sib.getLast? = some l := by
    rw [List.getLast?_eq_getLast _ hne]
    exact ⟨_, rfl⟩
  rw [hl]
  cases l with
  | none => simp [IsEqual]
  | some v =>
    simp only [Option.getD_some, IsEqual, decide_eq_true_eq, Option.some.injEq]
    exact eq_comm

theorem VerifyLeafToRoot_accumulate_witness :
    ([1, 2] : List Int).length = [some (Digest.leaf 1), some (Digest.leaf 7)].length ∧
    1 ≤ [some (Digest.leaf 1), some (Digest.leaf 7)].length ∧
    ∃ b, VerifyLeafToRoot Digest.node (some (Digest.leaf 0)) [1, 2]
        [some (Digest.leaf 1), some (Digest.leaf 7)] = .ok b ∧
      (b = true ↔ [some (Digest.leaf 1), some (Digest.leaf 7)].getLast? =
        some (some (accumulate Digest.node (Digest.leaf 0) [1, 2]
          [some (Digest.leaf 1), some (Digest.leaf 7)].dropLast))) :=
  ⟨by decide, by decide,
    VerifyLeafToRoot_accumulate Digest.node (Digest.leaf 0) [1, 2]
      [some (Digest.leaf 1), some (Digest.leaf 7)] (by decide) (by decide)⟩

/-- C12, as the claim states it, fails: on the empty proof `VerifyLeafToRoot`
returns the plain boolean `false`. -/
theorem VerifyLeafToRoot_empty_returns_false :
    ¬ (VerifyLeafToRoot Digest.node (some (Digest.leaf 0)) [] [] ≠ .ok false) ∧
    observed (VerifyLeafToRoot Digest.node (some (Digest.leaf 0)) [] []) ≠
      some (.error SpecError.MalformedProof) := by
  constructor
  · intro h
    exact h rfl
  · intro h
    cases h

/-- C12, amended: for every leaf digest, present or not, `VerifyLeafToRoot` applied
to the proof of length zero returns `false`; the result is a boolean and there is no
separate malformed-proof outcome. -/
theorem VerifyLeafToRoot_empty {Hash : Type} [DecidableEq Hash] (dh : Hash → Hash → Hash)
    (leaf : Option Hash) : VerifyLeafToRoot dh leaf [] [] = .ok false := by
  rfl


/-! ## `nextPowerOfTwo` on unbounded naturals -/

/-- On unbounded naturals, for every `n ≥ 1`, with the logarithm taken as the exact
floor, `nextPowerOfTwo n` is a power of two, at least `n`, below `2 * n`, not above any
power of two that is at least `n`, and equal to `n` when `n` is a power of two. -/
theorem nextPowerOfTwo_smallest (n : Nat) (hn : 1 ≤ n) :
    (∃ k, nextPowerOfTwo n = 2 ^ k) ∧ n ≤ nextPowerOfTwo n ∧ nextPowerOfTwo n < 2 * n ∧
      (∀ j, n ≤ 2 ^ j → nextPowerOfTwo n ≤ 2 ^ j) ∧
      (∀ j, n = 2 ^ j → nextPowerOfTwo n = n) := by
  obtain ⟨k, hk, hle, hmin⟩ := nextPowerOfTwo_least n hn
  have hmono : ∀ j, n ≤ 2 ^ j → 2 ^ k ≤ 2 ^ j :=
    fun j hj => Nat.pow_le_pow_right (by norm_num) (hmin j hj)
  rw [hk]
  refine ⟨⟨k, rfl⟩, hle, ?_, hmono, ?_⟩
  · cases k with
    | zero => simp; omega
    | succ k =>
      have : ¬ n ≤ 2 ^ k := fun h => by have := hmin k h; omega
      rw [pow_succ]
      omega
  · intro j hj
    have := hmono j (le_of_eq hj)
    omega

/-! ## `nextPowerOfTwo` on the 64-bit `int`: claim C14 -/

theorem wrap64_of_lt (x : Int) (h0 : 0 ≤ x) (h1 : x < 2 ^ 63) : wrap64 x = x := by
  unfold wrap64
  rw [Int.emod_eq_of_lt (by omega) (by omega)]
  omega

/-- Up to `2 ^ 62` the 64-bit function is the unbounded one. -/
theorem nextPowerOfTwoInt64_eq (n : Nat) (hn : 1 ≤ n) (h62 : n ≤ 2 ^ 62) :
    nextPowerOfTwoInt64 n = ((nextPowerOfTwo n : Nat) : Int) := by
  have hlt := (nextPowerOfTwo_smallest n hn).2.2.1
  unfold nextPowerOfTwoInt64
  unfold nextPowerOfTwo at hlt ⊢
  by_cases h : n &&& (n - 1) = 0
  · rw [if_pos h, if_pos h]
  · rw [if_neg h, Nat.shiftLeft_eq, one_mul] at hlt
    rw [if_neg h, if_neg h, Nat.shiftLeft_eq]
    simp only [one_mul]
    push_cast
    apply wrap64_of_lt
    · positivity
    · have : 2 ^ (Log2 n + 1) < 2 ^ 63 := by
        have e : (2 : Nat) ^ 63 = 2 * 2 ^ 62 := by norm_num
        omega
      exact_mod_cast this

/-- Above `2 ^ 62` the shift overflows: the result is `-2 ^ 63`. -/
theorem nextPowerOfTwoInt64_overflow (n : Nat) (h1 : 2 ^ 62 < n) (h2 : n < 2 ^ 63) :
    nextPowerOfTwoInt64 n = -2 ^ 63 := by
  have hn0 : n ≠ 0 := by omega
  have hlog : Nat.log2 n = 62 := by
    apply Nat.le_antisymm
    · have := (Nat.log2_lt hn0 (k := 63)).2 h2
      omega
    · exact (Nat.le_log2 hn0).2 (by omega)
  have hnp : ¬ n &&& (n - 1) = 0 := by
    intro h
    have := (and_pred_eq_zero_iff n (by omega)).1 h
    rw [hlog] at this
    omega
  unfold nextPowerOfTwoInt64
  rw [if_neg hnp, Log2_eq, hlog]
  unfold wrap64
  norm_num

/-- C14, as the claim states it, fails on the 64-bit `int`: for `n = 2 ^ 62 + 1`
the function returns `1 << 63 = -2 ^ 63`, which is no power of two and is below
`n`. -/
theorem nextPowerOfTwoInt64_not_smallest :
    nextPowerOfTwoInt64 (2 ^ 62 + 1) = -2 ^ 63 ∧
    ¬ (∃ k : Nat, nextPowerOfTwoInt64 (2 ^ 62 + 1) = 2 ^ k) ∧
    ¬ (((2 ^ 62 + 1 : Nat) : Int) ≤ nextPowerOfTwoInt64 (2 ^ 62 + 1)) := by
  have h := nextPowerOfTwoInt64_overflow (2 ^ 62 + 1) (by norm_num) (by norm_num)
  refine ⟨h, ?_, ?_⟩
  · rintro ⟨k, hk⟩
    rw [h] at hk
    have : (0 : Int) < 2 ^ k := by positivity
    omega
  · rw [h]
    norm_num

/-- C14, amended: for every `n` with `1 ≤ n ≤ 2 ^ 62`, with the logarithm taken as
the exact floor, `nextPowerOfTwo n` on the 64-bit `int` is a power of two, at least
`n`, below `2 * n`, not above any power of two that is at least `n`, and equal to
`n` when `n` is a power of two; for `2 ^ 62 < n < 2 ^ 63` it is `-2 ^ 63`. -/
theorem nextPowerOfTwoInt64_smallest (n : Nat) (hn : 1 ≤ n) (h62 : n ≤ 2 ^ 62) :
    (∃ k : Nat, nextPowerOfTwoInt64 n = 2 ^ k) ∧ (n : Int) ≤ nextPowerOfTwoInt64 n ∧
      nextPowerOfTwoInt64 n < 2 * (n : Int) ∧
      (∀ j : Nat, n ≤ 2 ^ j → nextPowerOfTwoInt64 n ≤ 2 ^ j) ∧
      (∀ j : Nat, n = 2 ^ j → nextPowerOfTwoInt64 n = n) ∧
      (∀ n' : Nat, 2 ^ 62 < n' → n' < 2 ^ 63 → nextPowerOfTwoInt64 n' = -2 ^ 63) := by
  obtain ⟨⟨k, hk⟩, h1, h2, h3, h4⟩ := nextPowerOfTwo_smallest n hn
  rw [nextPowerOfTwoInt64_eq n hn h62]
  refine ⟨⟨k, ?_⟩, ?_, ?_, ?_, ?_, nextPowerOfTwoInt64_overflow⟩
  · rw [hk]
    push_cast
    rfl
  · exact_mod_cast h1
  · exact_mod_cast h2
  · intro j hj
    exact_mod_cast h3 j hj
  · intro j hj
    rw [h4 j hj]

theorem nextPowerOfTwoInt64_smallest_witness :
    1 ≤ 5 ∧ 5 ≤ 2 ^ 62 ∧
    (∃ k : Nat, nextPowerOfTwoInt64 5 = 2 ^ k) ∧ ((5 : Nat) : Int) ≤ nextPowerOfTwoInt64 5 ∧
      nextPowerOfTwoInt64 5 < 2 * ((5 : Nat) : Int) ∧
      (∀ j : Nat, 5 ≤ 2 ^ j → nextPowerOfTwoInt64 5 ≤ 2 ^ j) ∧
      (∀ j : Nat, 5 = 2 ^ j → nextPowerOfTwoInt64 5 = (5 : Nat)) ∧
      (∀ n' : Nat, 2 ^ 62 < n' → n' < 2 ^ 63 → nextPowerOfTwoInt64 n' = -2 ^ 63) :=
  ⟨by decide, by decide, nextPowerOfTwoInt64_smallest 5 (by decide) (by decide)⟩

/-! ## Claims C15 and C17 -/

/-- C15, as the claim states it, fails: on the empty input `BuildMerkleTree`
reports no `EmptyInput` error. -/
theorem BuildMerkleTree_empty_no_report :
    observed (BuildMerkleTree Digest.node []) ≠ some (.error SpecError.EmptyInput) := by
  intro h
  cases h

/-- C15, amended: applied to zero leaves `BuildMerkleTree` returns no tree. It
computes `nextPowerOfTwo 0 = 0` and the array size `-1`, and `make` panics at run
time; nothing is reported to the caller. -/
theorem BuildMerkleTree_empty {Hash : Type} (dh : Hash → Hash → Hash) :
    nextPowerOfTwo 0 = 0 ∧
    BuildMerkleTree dh [] = .error .negativeLen ∧
    (∀ t, BuildMerkleTree dh [] ≠ .ok t) ∧
    observed (BuildMerkleTree dh []) = none := by
  have h : BuildMerkleTree dh [] = .error .negativeLen := by
    unfold BuildMerkleTree
    simp only [List.length]
    rfl
  refine ⟨rfl, h, ?_, ?_⟩
  · intro t ht
    rw [h] at ht
    cases ht
  · rw [h]
    rfl

theorem levelStart_even (m : Nat) : ∀ k, k ≤ m → levelStart (2 ^ m) k % 2 = 0 := by
  intro k
  induction k with
  | zero => intro _; rfl
  | succ k ih =>
    intro hk
    have h1 := ih (by omega)
    have h2 : 2 ^ m / 2 ^ k = 2 * 2 ^ (m - k - 1) := by
      rw [Nat.pow_div (by omega) (by norm_num), ← pow_succ']
      congr 1
      omega
    rw [levelStart, h2]
    omega

/-- C17: parity of flat indices. In a tree of leaf width `P = 2 ^ m ≥ 2` every
non-root level `k < m` starts at an even flat index, so the flat index of the node
at in-level position `q` is even exactly when `q` is even; the parity test of
`VerifyLeafToRoot` on that flat index puts a present sibling on the left exactly
when it is a left node. -/
theorem flat_index_parity {Hash : Type} [DecidableEq Hash] (dh : Hash → Hash → Hash)
    (m k q : Nat) (hk : k < m) :
    levelStart (2 ^ m) k % 2 = 0 ∧
    ((levelStart (2 ^ m) k + q) % 2 = 0 ↔ q % 2 = 0) ∧
    (∀ (pos : List Int) (n i : Nat) (s acc : Hash) (rest : List (Option Hash)),
      i ≠ n - 1 → pos[i]? = some ((levelStart (2 ^ m) k + q : Nat) : Int) →
      verifyLoop dh pos n i (some s :: rest) (some acc) =
        verifyLoop dh pos n (i + 1) rest
          (some (if q % 2 = 0 then dh s acc else dh acc s))) := by
  have he := levelStart_even m k (by omega)
  refine ⟨he, by omega, ?_⟩
  intro pos n i s acc rest hi hp
  have hmod : Int.tmod ((levelStart (2 ^ m) k + q : Nat) : Int) 2 = 0 ↔ q % 2 = 0 := by
    rw [tmod_two_eq_zero_iff]
    omega
  conv_lhs => unfold verifyLoop
  rw [if_neg hi]
  simp only [getAt, hp, HashMerkleBranches]
  by_cases hq : q % 2 = 0
  · rw [if_pos (hmod.2 hq), if_pos hq]
  · rw [if_neg (fun e => hq (hmod.1 e)), if_neg hq]

theorem flat_index_parity_witness :
    1 < 3 ∧
    levelStart (2 ^ 3) 1 % 2 = 0 ∧
    ((levelStart (2 ^ 3) 1 + 2) % 2 = 0 ↔ 2 % 2 = 0) ∧
    (∀ (pos : List Int) (n i : Nat) (s acc : Digest) (rest : List (Option Digest)),
      i ≠ n - 1 → pos[i]? = some ((levelStart (2 ^ 3) 1 + 2 : Nat) : Int) →
      verifyLoop Digest.node pos n i (some s :: rest) (some acc) =
        verifyLoop Digest.node pos n (i + 1) rest
          (some (if 2 % 2 = 0 then Digest.node s acc else Digest.node acc s))) :=
  ⟨by decide, flat_index_parity Digest.node 3 1 2 (by decide)⟩


/-! ## Consequences of the level offset: claims C13 and C19 -/

theorem getAt_of_le {α : Type} (s : List α) (i : Nat) (h : s.length ≤ i) :
    getAt s i = .error .indexOutOfRange := by
  simp [getAt, List.getElem?_eq_none h]

theorem nextPowerOfTwo_of_33_64 (n : Nat) (h1 : 33 ≤ n) (h2 : n ≤ 64) :
    nextPowerOfTwo n = 64 := by
  interval_cases n <;> rfl

/-- On an array of 127 entries the part of `NodesForVerify` after the search, for
a target at index 0, reads past the end: the offset reaches 130 at level 5. -/
theorem nodesFromIndex_127 {Hash : Type} (m : List (Option Hash)) (h : m.length = 127) :
    nodesFromIndex m 0 = .error .indexOutOfRange := by
  have hout : getAt m 131 = .error .indexOutOfRange := getAt_of_le m 131 (by omega)
  simp [nodesFromIndex, h, Log2, log2Loop, walkLoop, setAt, getAt_of_lt, List.replicate, hout]

/-- C19, at the input where the code leaves it: for 33 to 64 leaves (leaf width 64,
tree length 127) and a target equal to the first leaf, `NodesForVerify` does not stay
in range: it panics with an index out of range, reading `merkles[131]`. -/
theorem NodesForVerify_out_of_range {Hash : Type} [DecidableEq Hash]
    (dh : Hash → Hash → Hash) (hashes : List (Option Hash)) (target : Option Hash)
    (hN1 : 33 ≤ hashes.length) (hN2 : hashes.length ≤ 64)
    (h0 : hashes[0]? = some target) :
    ∃ t, BuildMerkleTree dh hashes = .ok t ∧ t.length = 127 ∧
      NodesForVerify target t = .error .indexOutOfRange := by
  obtain ⟨t, hrun, hlen, hleaf, -⟩ := BuildMerkleTree_spec dh hashes (by omega)
  rw [nextPowerOfTwo_of_33_64 _ hN1 hN2] at hlen hleaf
  have hlen127 : t.length = 127 := hlen
  have hhead : t[0]? = some target := by
    have : (t.take 64)[0]? = some target := by
      rw [hleaf, padLeaves, List.getElem?_append_left (by omega), h0]
    rwa [List.getElem?_take_of_lt (by norm_num)] at this
  obtain ⟨rest, rfl⟩ : ∃ rest, t = target :: rest := by
    match t, hhead with
    | x :: rest, hx =>
      simp at hx
      exact ⟨rest, by rw [hx]⟩
  refine ⟨_, hrun, hlen127, ?_⟩
  unfold NodesForVerify
  rw [findTarget_head]
  simp only [nodesFromIndex_127 _ hlen127]

theorem NodesForVerify_out_of_range_witness :
    33 ≤ (List.replicate 33 (some (Digest.leaf 0))).length ∧
    (List.replicate 33 (some (Digest.leaf 0))).length ≤ 64 ∧
    (List.replicate 33 (some (Digest.leaf 0)))[0]? = some (some (Digest.leaf 0)) ∧
    ∃ t, BuildMerkleTree Digest.node (List.replicate 33 (some (Digest.leaf 0))) = .ok t ∧
      t.length = 127 ∧
      NodesForVerify (some (Digest.leaf 0)) t = .error .indexOutOfRange :=
  ⟨by decide, by decide, by rfl,
    NodesForVerify_out_of_range Digest.node (List.replicate 33 (some (Digest.leaf 0)))
      (some (Digest.leaf 0)) (by decide) (by decide) (by rfl)⟩

set_option maxRecDepth 100000 in
set_option maxHeartbeats 4000000 in
/-- C13, at an input where the code leaves it: seventeen leaves all equal to `a`,
under a branch hash without collisions. `NodesForVerify` returns a proof whose fifth
sibling is the root `dup 5 a`; replacing that present sibling by the different
digest `dup 4 a` makes `VerifyLeafToRoot` return `true`. -/
theorem tampered_proof_accepted {Hash : Type} [DecidableEq Hash] (dh : Hash → Hash → Hash)
    (a : Hash) (_hinj : ∀ x y u v, dh x y = dh u v → x = u ∧ y = v)
    (hne : dup dh 4 a ≠ dup dh 5 a) :
    ∃ t pos sib, BuildMerkleTree dh (seventeenLeaves (fun _ => a)) = .ok t ∧
      NodesForVerify (some a) t = .ok (some (pos, sib)) ∧
      sib[4]? = some (some (dup dh 5 a)) ∧
      some (dup dh 4 a) ≠ some (dup dh 5 a) ∧
      VerifyLeafToRoot dh (some a) pos (sib.set 4 (some (dup dh 4 a))) = .ok true := by
  have hb : ∃ t, BuildMerkleTree dh (seventeenLeaves (fun _ => a)) = .ok t ∧
      t.length = 63 ∧ t[0]? = some (some a) ∧ t.getD 1 none = some a ∧
      t.getD 33 none = some (dup dh 1 a) ∧ t.getD 49 none = some (dup dh 2 a) ∧
      t.getD 57 none = some (dup dh 3 a) ∧ t.getD 62 none = some (dup dh 5 a) := by
    simp [BuildMerkleTree, nextPowerOfTwo, Log2, log2Loop, copy, buildLoop, getAt, setAt,
      HashMerkleBranches, seventeenLeaves, dup]
  obtain ⟨t, hrun, hlen, hhead, h1, h33, h49, h57, h62⟩ := hb
  obtain ⟨rest, rfl⟩ : ∃ rest, t = some a :: rest := by
    match t, hhead with
    | x :: rest, hx =>
      simp at hx
      exact ⟨rest, by rw [hx]⟩
  have hfound : NodesForVerify (some a) (some a :: rest) =
      .ok (some ([1, 33, 49, 57, 62, 62],
        [some a, some (dup dh 1 a), some (dup dh 2 a), some (dup dh 3 a),
          some (dup dh 5 a), some (dup dh 5 a)])) := by
    unfold NodesForVerify
    rw [findTarget_head]
    simp only [nodesFromIndex_63 _ hlen, h1, h33, h49, h57, h62]
  refine ⟨_, _, _, hrun, hfound, rfl, ?_, ?_⟩
  · intro h
    injection h with h
    exact hne h
  · simp +decide [VerifyLeafToRoot, verifyLoop, getAt, HashMerkleBranches, IsEqual, dup]

theorem tampered_proof_accepted_witness :
    (∀ x y u v, Digest.node x y = Digest.node u v → x = u ∧ y = v) ∧
    dup Digest.node 4 (Digest.leaf 0) ≠ dup Digest.node 5 (Digest.leaf 0) ∧
    ∃ t pos sib, BuildMerkleTree Digest.node (seventeenLeaves (fun _ => Digest.leaf 0)) = .ok t ∧
      NodesForVerify (some (Digest.leaf 0)) t = .ok (some (pos, sib)) ∧
      sib[4]? = some (some (dup Digest.node 5 (Digest.leaf 0))) ∧
      some (dup Digest.node 4 (Digest.leaf 0)) ≠ some (dup Digest.node 5 (Digest.leaf 0)) ∧
      VerifyLeafToRoot Digest.node (some (Digest.leaf 0)) pos
        (sib.set 4 (some (dup Digest.node 4 (Digest.leaf 0)))) = .ok true :=
  ⟨fun x y u v h => by injection h with h1 h2; exact ⟨h1, h2⟩, by decide,
    tampered_proof_accepted Digest.node (Digest.leaf 0)
      (fun x y u v h => by injection h with h1 h2; exact ⟨h1, h2⟩) (by decide)⟩


/-! ## The built tree, level by level -/

/-- The part of a flat array above the leaf level obeys the parent rule again. -/
theorem drop_parent_rule {Hash : Type} (dh : Hash → Hash → Hash) (k : Nat)
    (t : List (Option Hash))
    (hpar : ∀ j, j < 2 ^ (k + 1) - 1 →
      t.getD (2 ^ (k + 1) + j) none =
        combine dh (t.getD (2 * j) none) (t.getD (2 * j + 1) none)) :
    ∀ j, j < 2 ^ k - 1 →
      (t.drop (2 ^ (k + 1))).getD (2 ^ k + j) none =
        combine dh ((t.drop (2 ^ (k + 1))).getD (2 * j) none)
          ((t.drop (2 ^ (k + 1))).getD (2 * j + 1) none) := by
  have hp : 2 ^ (k + 1) = 2 * 2 ^ k := by ring
  have hd : ∀ i, (t.drop (2 ^ (k + 1))).getD i none = t.getD (2 ^ (k + 1) + i) none := by
    intro i
    simp [List.getD_eq_getElem?_getD, List.getElem?_drop]
  intro j hj
  rw [hd, hd, hd]
  have := hpar (2 ^ k + j) (by omega)
  have e2 : 2 * (2 ^ k + j) = 2 ^ (k + 1) + 2 * j := by omega
  have e3 : 2 ^ (k + 1) + 2 * j + 1 = 2 ^ (k + 1) + (2 * j + 1) := by omega
  rw [e2, e3] at this
  exact this

/-- The level above the leaves, read off a flat array that obeys the parent rule. -/
theorem pairUp_take_eq {Hash : Type} (dh : Hash → Hash → Hash) (k : Nat)
    (t : List (Option Hash)) (hlen : t.length = 2 * 2 ^ (k + 1) - 1)
    (hpar : ∀ j, j < 2 ^ (k + 1) - 1 →
      t.getD (2 ^ (k + 1) + j) none =
        combine dh (t.getD (2 * j) none) (t.getD (2 * j + 1) none)) :
    pairUp dh (t.take (2 ^ (k + 1))) = (t.drop (2 ^ (k + 1))).take (2 ^ k) := by
  have hp : 2 ^ (k + 1) = 2 * 2 ^ k := by ring
  have hpos : 0 < 2 ^ k := Nat.two_pow_pos _
  apply List.ext_getElem?
  intro j
  by_cases hj : j < 2 ^ k
  · rw [pairUp_getD dh j _ (by simp; omega), List.getElem?_take_of_lt hj,
      List.getElem?_drop, List.getElem?_eq_getElem (by omega)]
    have := hpar j (by omega)
    rw [List.getD_eq_getElem?_getD, List.getElem?_eq_getElem (by omega),
      Option.getD_some] at this
    rw [this]
    congr 2
    · simp [List.getD_eq_getElem?_getD,
        List.getElem?_take_of_lt (show 2 * j < 2 ^ (k + 1) by omega)]
    · simp [List.getD_eq_getElem?_getD,
        List.getElem?_take_of_lt (show 2 * j + 1 < 2 ^ (k + 1) by omega)]
  · rw [List.getElem?_eq_none, List.getElem?_eq_none]
    · simp; omega
    · rw [pairUp_length dh (2 ^ k)]
      · omega
      · simp; omega

/-- A flat array of length `2 * 2 ^ k - 1` that obeys the parent rule is the flat
layout of its leaf segment. -/
theorem flat_eq {Hash : Type} (dh : Hash → Hash → Hash) :
    ∀ (k : Nat) (t : List (Option Hash)), t.length = 2 * 2 ^ k - 1 →
      (∀ j, j < 2 ^ k - 1 →
        t.getD (2 ^ k + j) none = combine dh (t.getD (2 * j) none) (t.getD (2 * j + 1) none)) →
      t = flatTree dh k (t.take (2 ^ k)) := by
  intro k
  induction k with
  | zero =>
    intro t hlen _
    rw [flatTree, List.take_of_length_le (by rw [hlen]; norm_num)]
  | succ k ih =>
    intro t hlen hpar
    have hp : 2 ^ (k + 1) = 2 * 2 ^ k := by ring
    have hpos : 0 < 2 ^ k := Nat.two_pow_pos _
    have hrec := ih (t.drop (2 ^ (k + 1))) (by simp; omega) (drop_parent_rule dh k t hpar)
    rw [← pairUp_take_eq dh k t hlen hpar] at hrec
    rw [flatTree, ← hrec, List.take_append_drop]

theorem flatTree_length {Hash : Type} (dh : Hash → Hash → Hash) :
    ∀ (m : Nat) (l : List (Option Hash)), l.length = 2 ^ m →
      (flatTree dh m l).length = 2 * 2 ^ m - 1 := by
  intro m
  induction m with
  | zero => intro l h; rw [flatTree, h]; rfl
  | succ m ih =>
    intro l h
    have hp : 2 ^ (m + 1) = 2 * 2 ^ m := by ring
    have hpos : 0 < 2 ^ m := Nat.two_pow_pos _
    rw [flatTree, List.length_append, ih _ (pairUp_length dh (2 ^ m) l (by omega)), h]
    omega

theorem levelStart_shift (P : Nat) : ∀ k, levelStart (2 * P) (k + 1) = 2 * P + levelStart P k := by
  intro k
  induction k with
  | zero => simp [levelStart]
  | succ k ih =>
    rw [levelStart, ih, levelStart]
    have : 2 * P / 2 ^ (k + 1) = P / 2 ^ k := by
      rw [pow_succ', Nat.mul_div_mul_left _ _ (by norm_num)]
    omega

/-- Entry `levelStart + q` of the flat layout is node `q` of level `k`. -/
theorem flatTree_getD_level {Hash : Type} (dh : Hash → Hash → Hash) :
    ∀ (k m : Nat) (l : List (Option Hash)) (q : Nat), l.length = 2 ^ m → k ≤ m →
      q < 2 ^ (m - k) →
      (flatTree dh m l).getD (levelStart (2 ^ m) k + q) none = (levelAt dh k l).getD q none := by
  intro k
  induction k with
  | zero =>
    intro m l q hl _ hq
    rw [levelAt]
    cases m with
    | zero => simp [flatTree, levelStart]
    | succ m =>
      rw [flatTree, levelStart, Nat.zero_add, List.getD_append _ _ _ _ (by rw [hl]; simpa using hq)]
  | succ k ih =>
    intro m l q hl hk hq
    cases m with
    | zero => omega
    | succ m =>
      have hp : 2 ^ (m + 1) = 2 * 2 ^ m := by ring
      have hsub : m + 1 - (k + 1) = m - k := by omega
      rw [hsub] at hq
      rw [flatTree, levelAt, hp, levelStart_shift, ← hp,
        List.getD_append_right _ _ _ _ (by rw [hl]; omega)]
      have e : 2 ^ (m + 1) + levelStart (2 ^ m) k + q - l.length = levelStart (2 ^ m) k + q := by
        rw [hl]; omega
      rw [e]
      exact ih m (pairUp dh l) q (pairUp_length dh (2 ^ m) l (by omega)) (by omega) hq

theorem pairUp_length_div {Hash : Type} (dh : Hash → Hash → Hash) :
    ∀ l : List (Option Hash), (pairUp dh l).length = l.length / 2
  | [] => by simp [pairUp]
  | [_] => by simp [pairUp]
  | _ :: _ :: rest => by
    simp only [pairUp, List.length_cons, pairUp_length_div dh rest]
    omega

theorem pairUp_getD_ne_none {Hash : Type} (dh : Hash → Hash → Hash)
    (l : List (Option Hash)) (j : Nat) :
    (pairUp dh l).getD j none ≠ none ↔ 2 * j + 1 < l.length ∧ l.getD (2 * j) none ≠ none := by
  by_cases h : 2 * j + 1 < l.length
  · rw [List.getD_eq_getElem?_getD, pairUp_getD dh j l h, Option.getD_some]
    cases l.getD (2 * j) none with
    | none => simp [combine, h]
    | some v => cases l.getD (2 * j + 1) none <;> simp [combine, h]
  · have hlen : (pairUp dh l).length ≤ j := by
      rw [pairUp_length_div]
      omega
    rw [List.getD_eq_default _ _ hlen]
    simp [h]

theorem prefix_pairUp {Hash : Type} (dh : Hash → Hash → Hash) (l : List (Option Hash))
    (h : PrefixPresent l) : PrefixPresent (pairUp dh l) := by
  intro i j hij hj
  rw [pairUp_getD_ne_none] at hj ⊢
  exact ⟨by omega, h (2 * i) (2 * j) (by omega) hj.2⟩

theorem prefix_levelAt {Hash : Type} (dh : Hash → Hash → Hash) :
    ∀ (k : Nat) (l : List (Option Hash)), PrefixPresent l → PrefixPresent (levelAt dh k l) := by
  intro k
  induction k with
  | zero => intro l h; exact h
  | succ k ih => intro l h; exact ih _ (prefix_pairUp dh l h)

theorem prefix_padLeaves {Hash : Type} (hashes : List (Option Hash)) (P : Nat)
    (hpres : ∀ x ∈ hashes, x ≠ none) : PrefixPresent (padLeaves hashes P) := by
  intro i j hij hj
  have hjN : j < hashes.length := by
    by_contra hge
    apply hj
    rw [padLeaves, List.getD_append_right _ _ _ _ (by omega), List.getD_eq_getElem?_getD,
      List.getElem?_replicate]
    split <;> rfl
  rw [padLeaves, List.getD_append _ _ _ _ (by omega), List.getD_eq_getElem _ _ (by omega)]
  exact hpres _ (List.getElem_mem _)

/-- In the flat layout over a level whose present nodes form a prefix, a present
node at an odd flat index has a present node right before it. -/
theorem flatTree_left_present {Hash : Type} (dh : Hash → Hash → Hash) :
    ∀ (m : Nat) (l : List (Option Hash)), l.length = 2 ^ m → PrefixPresent l →
      ∀ j, (flatTree dh m l).getD (2 * j + 1) none ≠ none →
        (flatTree dh m l).getD (2 * j) none ≠ none := by
  intro m
  induction m with
  | zero =>
    intro l hl _ j hj
    exfalso
    apply hj
    rw [flatTree, List.getD_eq_default _ _ (by rw [hl]; simp)]
  | succ m ih =>
    intro l hl hpre j hj
    have hp : 2 ^ (m + 1) = 2 * 2 ^ m := by ring
    rw [flatTree] at hj ⊢
    by_cases hin : 2 * j + 1 < l.length
    · rw [List.getD_append _ _ _ _ hin] at hj
      rw [List.getD_append _ _ _ _ (by omega)]
      exact hpre _ _ (by omega) hj
    · rw [List.getD_append_right _ _ _ _ (by omega)] at hj
      rw [List.getD_append_right _ _ _ _ (by omega)]
      have e1 : 2 * j + 1 - l.length = 2 * (j - 2 ^ m) + 1 := by omega
      have e2 : 2 * j - l.length = 2 * (j - 2 ^ m) := by omega
      rw [e1] at hj
      rw [e2]
      exact ih _ (pairUp_length dh (2 ^ m) l (by omega)) (prefix_pairUp dh l hpre) _ hj

/-- The tree built from `N ≥ 1` present leaves: the flat layout of the padded leaf
level, whose present nodes form a prefix. -/
theorem BuildMerkleTree_layout {Hash : Type} (dh : Hash → Hash → Hash)
    (hashes : List (Option Hash)) (hN : 1 ≤ hashes.length) :
    ∃ t m, BuildMerkleTree dh hashes = .ok t ∧ nextPowerOfTwo hashes.length = 2 ^ m ∧
      hashes.length ≤ 2 ^ m ∧ t.length = 2 * 2 ^ m - 1 ∧
      t = flatTree dh m (padLeaves hashes (2 ^ m)) ∧
      (padLeaves hashes (2 ^ m)).length = 2 ^ m ∧
      (∀ j, j < 2 ^ m - 1 →
        t.getD (2 ^ m + j) none = combine dh (t.getD (2 * j) none) (t.getD (2 * j + 1) none)) := by
  obtain ⟨t, hrun, hlen, hleaf, hpar⟩ := BuildMerkleTree_spec dh hashes hN
  obtain ⟨m, hm, hle, -⟩ := nextPowerOfTwo_least hashes.length hN
  rw [hm] at hlen hleaf hpar
  refine ⟨t, m, hrun, hm, hle, hlen, ?_, ?_, hpar⟩
  · have := flat_eq dh m t hlen hpar
    rwa [hleaf] at this
  · simp [padLeaves]
    omega


/-! ## Present nodes: claim C20 -/

theorem combine_ne_none {Hash : Type} (dh : Hash → Hash → Hash) (x y : Option Hash) :
    combine dh x y ≠ none ↔ x ≠ none := by
  cases x with
  | none => simp [combine]
  | some l => cases y <;> simp [combine]

theorem levelRoot_present {Hash : Type} (dh : Hash → Hash → Hash) :
    ∀ (k : Nat) (l : List (Option Hash)), l.getD 0 none ≠ none → levelRoot dh k l ≠ none := by
  intro k
  induction k with
  | zero =>
    intro l h
    cases l with
    | nil => simp at h
    | cons a rest => simpa [levelRoot] using h
  | succ k ih =>
    intro l h
    rw [levelRoot, combine_ne_none]
    apply ih
    have hpos : 0 < 2 ^ k := Nat.two_pow_pos _
    cases l with
    | nil => simp at h
    | cons a rest =>
      obtain ⟨c, hc⟩ : ∃ c, 2 ^ k = c + 1 := ⟨2 ^ k - 1, by omega⟩
      rw [hc]
      simpa using h

/-- C20: present nodes form a prefix of each level. In the tree built from `N ≥ 1`
present leaves, with leaf width `2 ^ m`: at every level `k ≤ m`, if the node at
in-level position `q` is present then so is every node at a position `q' ≤ q`; the
root is present; and a present right node (position `q + 1`, `q` even) has a present
left sibling. -/
theorem present_prefix_each_level {Hash : Type} (dh : Hash → Hash → Hash)
    (hashes : List (Option Hash)) (hN : 1 ≤ hashes.length)
    (hpres : ∀ x ∈ hashes, x ≠ none) :
    ∃ t m, BuildMerkleTree dh hashes = .ok t ∧ nextPowerOfTwo hashes.length = 2 ^ m ∧
      (∀ k q q', k ≤ m → q < 2 ^ (m - k) → q' ≤ q →
        t.getD (levelStart (2 ^ m) k + q) none ≠ none →
        t.getD (levelStart (2 ^ m) k + q') none ≠ none) ∧
      (∃ r, t.getLast? = some (some r)) ∧
      (∀ k q, k ≤ m → q + 1 < 2 ^ (m - k) → q % 2 = 0 →
        t.getD (levelStart (2 ^ m) k + (q + 1)) none ≠ none →
        t.getD (levelStart (2 ^ m) k + q) none ≠ none) := by
  obtain ⟨t, m, hrun, hm, hle, hlen, hflat, hpad, hpar⟩ := BuildMerkleTree_layout dh hashes hN
  have hpre := prefix_padLeaves hashes (2 ^ m) hpres
  have hpos : 0 < 2 ^ m := Nat.two_pow_pos m
  have hlevel : ∀ k q q', k ≤ m → q < 2 ^ (m - k) → q' ≤ q →
      t.getD (levelStart (2 ^ m) k + q) none ≠ none →
      t.getD (levelStart (2 ^ m) k + q') none ≠ none := by
    intro k q q' hk hq hq' hp
    rw [hflat, flatTree_getD_level dh k m _ _ hpad hk (by omega)]
    rw [hflat, flatTree_getD_level dh k m _ _ hpad hk hq] at hp
    exact prefix_levelAt dh k _ hpre q' q hq' hp
  refine ⟨t, m, hrun, hm, hlevel, ?_, ?_⟩
  · have hroot := flat_root dh m t hlen hpar
    have hne : levelRoot dh m (t.take (2 ^ m)) ≠ none := by
      apply levelRoot_present
      have h0 : (padLeaves hashes (2 ^ m)).getD 0 none ≠ none := by
        rw [padLeaves, List.getD_append _ _ _ _ (by omega),
          List.getD_eq_getElem _ _ (by omega)]
        exact hpres _ (List.getElem_mem _)
      have ht : t.take (2 ^ m) = padLeaves hashes (2 ^ m) := by
        rw [hflat]
        cases m with
        | zero => rw [flatTree, List.take_of_length_le (by rw [hpad])]
        | succ m => rw [flatTree, List.take_left' hpad]
      rwa [ht]
    rw [← hroot] at hne
    rw [List.getLast?_eq_getElem?, hlen]
    have e : 2 * 2 ^ m - 1 - 1 = 2 * 2 ^ m - 2 := by omega
    rw [e]
    rw [List.getD_eq_getElem?_getD] at hne
    cases hv : t[2 * 2 ^ m - 2]? with
    | none => rw [hv] at hne; simp at hne
    | some v =>
      rw [hv] at hne
      cases v with
      | none => simp at hne
      | some r => exact ⟨r, rfl⟩
  · intro k q hk hq _ hp
    exact hlevel k (q + 1) q hk hq (by omega) hp

theorem present_prefix_each_level_witness :
    1 ≤ sampleLeaves.length ∧ (∀ x ∈ sampleLeaves, x ≠ none) ∧
    ∃ t m, BuildMerkleTree Digest.node sampleLeaves = .ok t ∧
      nextPowerOfTwo sampleLeaves.length = 2 ^ m ∧
      (∀ k q q', k ≤ m → q < 2 ^ (m - k) → q' ≤ q →
        t.getD (levelStart (2 ^ m) k + q) none ≠ none →
        t.getD (levelStart (2 ^ m) k + q') none ≠ none) ∧
      (∃ r, t.getLast? = some (some r)) ∧
      (∀ k q, k ≤ m → q + 1 < 2 ^ (m - k) → q % 2 = 0 →
        t.getD (levelStart (2 ^ m) k + (q + 1)) none ≠ none →
        t.getD (levelStart (2 ^ m) k + q) none ≠ none) :=
  ⟨by decide, by decide,
    present_prefix_each_level Digest.node sampleLeaves (by decide) (by decide)⟩


/-! ## The search and the sibling path -/

theorem IsEqual_iff {Hash : Type} [DecidableEq Hash] (h target : Option Hash) :
    IsEqual h target = true ↔ h = target := by
  cases h <;> cases target <;> simp [IsEqual]

/-- The search of `NodesForVerify` stops at the first entry equal to the target. -/
theorem findTarget_first {Hash : Type} [DecidableEq Hash] (target : Option Hash) :
    ∀ (l : List (Option Hash)) (s i : Nat), l[i]? = some target →
      ∃ t0, t0 ≤ i ∧ findTarget target s l = some (s + t0) ∧ l[t0]? = some target ∧
        ∀ j, j < t0 → l[j]? ≠ some target := by
  intro l
  induction l with
  | nil => intro s i h; simp at h
  | cons a rest ih =>
    intro s i h
    by_cases ha : a = target
    · refine ⟨0, by omega, ?_, by simp [ha], fun j hj => by omega⟩
      rw [findTarget, if_pos ((IsEqual_iff a target).2 ha)]
      rfl
    · cases i with
      | zero => simp at h; exact absurd h ha
      | succ i =>
        simp only [List.getElem?_cons_succ] at h
        obtain ⟨t0, h1, h2, h3, h4⟩ := ih (s + 1) i h
        refine ⟨t0 + 1, by omega, ?_, by simpa using h3, ?_⟩
        · rw [findTarget, if_neg (fun e => ha ((IsEqual_iff a target).1 e)), h2]
          congr 1
          omega
        · intro j hj
          cases j with
          | zero => simpa using ha
          | succ j => simpa using h4 j (by omega)

theorem accumulate_append {Hash : Type} (dh : Hash → Hash → Hash) :
    ∀ (ps extra : List Int) (ss : List (Option Hash)) (acc : Hash), ps.length = ss.length →
      accumulate dh acc (ps ++ extra) ss = accumulate dh acc ps ss := by
  intro ps
  induction ps with
  | nil =>
    intro extra ss acc h
    have : ss = [] := List.length_eq_zero.1 h.symm
    subst this
    cases extra <;> rfl
  | cons p ps ih =>
    intro extra ss acc h
    cases ss with
    | nil => simp at h
    | cons s ss =>
      simp only [List.cons_append, accumulate]
      exact ih extra ss _ (by simpa using h)

/-- In a flat array that obeys the parent rule and where a present node at an odd
index has a present node before it, folding the verifier steps along the sibling
path from a present node ends in the root. -/
theorem accumulate_flatPath {Hash : Type} (dh : Hash → Hash → Hash) (P : Nat)
    (t : List (Option Hash))
    (hpar : ∀ j, j < P - 1 →
      t.getD (P + j) none = combine dh (t.getD (2 * j) none) (t.getD (2 * j + 1) none))
    (hleft : ∀ j, t.getD (2 * j + 1) none ≠ none → t.getD (2 * j) none ≠ none) :
    ∀ (fuel c : Nat) (x : Hash), 2 * P - 2 - c ≤ fuel → c + 2 ≤ 2 * P →
      t.getD c none = some x →
      t.getD (2 * P - 2) none =
        some (accumulate dh x ((flatPath P fuel c).map (fun p : Nat => (p : Int)))
          ((flatPath P fuel c).map (fun p => t.getD p none))) := by
  intro fuel
  induction fuel with
  | zero =>
    intro c x hf hc hx
    have : c = 2 * P - 2 := by omega
    subst this
    simpa [flatPath, accumulate] using hx
  | succ f ih =>
    intro c x hf hc hx
    by_cases hlast : c + 2 < 2 * P
    · rw [flatPath, if_pos hlast]
      simp only [List.map_cons, accumulate]
      have hj := hpar (c / 2) (by omega)
      apply ih (P + c / 2) _ (by omega) (by omega)
      rw [hj]
      by_cases hev : c % 2 = 0
      · have e0 : 2 * (c / 2) = c := by omega
        have e1 : 2 * (c / 2) + 1 = c + 1 := by omega
        rw [if_pos hev, e1, e0, hx]
        cases t.getD (c + 1) none with
        | none => simp [combine, accStep]
        | some v =>
          have : ¬ ((c + 1 : Nat) : Int) % 2 = 0 := by omega
          simp only [combine, accStep, if_neg this]
      · have e0 : 2 * (c / 2) = c - 1 := by omega
        have e1 : 2 * (c / 2) + 1 = c := by omega
        have hl := hleft (c / 2) (by rw [e1, hx]; simp)
        rw [e0] at hl
        rw [if_neg hev, e1, e0, hx]
        cases hv : t.getD (c - 1) none with
        | none => exact absurd hv hl
        | some v =>
          have : ((c - 1 : Nat) : Int) % 2 = 0 := by omega
          simp only [combine, accStep, if_pos this]
    · have : c = 2 * P - 2 := by omega
      subst this
      rw [flatPath, if_neg hlast]
      simpa [accumulate] using hx

/-! ## The proof generator on trees of at most sixteen leaves -/

theorem nodesFromIndex_width_2 {Hash : Type} (t : List (Option Hash)) (h : t.length = 3)
    (t0 : Nat) (h0 : t0 < 2) :
    nodesFromIndex t t0 =
      .ok ((flatPath 2 4 t0 ++ [2]).map (fun p : Nat => (p : Int)),
        (flatPath 2 4 t0 ++ [2]).map (fun p => t.getD p none)) := by
  interval_cases t0 <;>
    simp [nodesFromIndex, h, Log2, log2Loop, walkLoop, setAt, getAt_of_lt, List.replicate,
      flatPath]

theorem nodesFromIndex_width_4 {Hash : Type} (t : List (Option Hash)) (h : t.length = 7)
    (t0 : Nat) (h0 : t0 < 4) :
    nodesFromIndex t t0 =
      .ok ((flatPath 4 8 t0 ++ [6]).map (fun p : Nat => (p : Int)),
        (flatPath 4 8 t0 ++ [6]).map (fun p => t.getD p none)) := by
  interval_cases t0 <;>
    simp [nodesFromIndex, h, Log2, log2Loop, walkLoop, setAt, getAt_of_lt, List.replicate,
      flatPath]

theorem nodesFromIndex_width_8 {Hash : Type} (t : List (Option Hash)) (h : t.length = 15)
    (t0 : Nat) (h0 : t0 < 8) :
    nodesFromIndex t t0 =
      .ok ((flatPath 8 16 t0 ++ [14]).map (fun p : Nat => (p : Int)),
        (flatPath 8 16 t0 ++ [14]).map (fun p => t.getD p none)) := by
  interval_cases t0 <;>
    simp [nodesFromIndex, h, Log2, log2Loop, walkLoop, setAt, getAt_of_lt, List.replicate,
      flatPath]

theorem nodesFromIndex_width_16 {Hash : Type} (t : List (Option Hash)) (h : t.length = 31)
    (t0 : Nat) (h0 : t0 < 16) :
    nodesFromIndex t t0 =
      .ok ((flatPath 16 32 t0 ++ [30]).map (fun p : Nat => (p : Int)),
        (flatPath 16 32 t0 ++ [30]).map (fun p => t.getD p none)) := by
  interval_cases t0 <;>
    simp [nodesFromIndex, h, Log2, log2Loop, walkLoop, setAt, getAt_of_lt, List.replicate,
      flatPath]


/-! ## Round trip on small trees (claim C18) and first match -/

/-- `VerifyLeafToRoot` accepts the sibling path of a present node in a flat array
that obeys the parent rule and has present left siblings. -/
theorem VerifyLeafToRoot_flatPath {Hash : Type} [DecidableEq Hash] (dh : Hash → Hash → Hash)
    (P : Nat) (t : List (Option Hash))
    (hpar : ∀ j, j < P - 1 →
      t.getD (P + j) none = combine dh (t.getD (2 * j) none) (t.getD (2 * j + 1) none))
    (hleft : ∀ j, t.getD (2 * j + 1) none ≠ none → t.getD (2 * j) none ≠ none)
    (t0 : Nat) (x : Hash) (h0 : t0 + 2 ≤ 2 * P) (hx : t.getD t0 none = some x) :
    VerifyLeafToRoot dh (some x)
      ((flatPath P (2 * P) t0 ++ [2 * P - 2]).map (fun p : Nat => (p : Int)))
      ((flatPath P (2 * P) t0 ++ [2 * P - 2]).map (fun p => t.getD p none)) = .ok true := by
  have hacc := accumulate_flatPath dh P t hpar hleft (2 * P) t0 x (by omega) h0 hx
  unfold VerifyLeafToRoot
  rw [verifyLoop_eq dh _ _ _ 0 x (by simp) (by simp) (by simp)]
  simp only [List.drop_zero, List.map_append, List.map_cons, List.map_nil,
    List.dropLast_concat, List.getLast?_concat, Option.getD_some]
  rw [accumulate_append dh _ _ _ _ (by simp), hacc]
  simp [IsEqual]

/-- C18: round trip on small trees. For every sequence of `N` present leaf digests
with `2 ≤ N ≤ 16` and every leaf index `i`, `NodesForVerify` on leaf `i` and the
built tree returns a proof, and `VerifyLeafToRoot` on leaf `i` and that proof
returns `true`. -/
theorem roundTrip_small {Hash : Type} [DecidableEq Hash] (dh : Hash → Hash → Hash)
    (hashes : List (Option Hash)) (target : Option Hash) (i : Nat)
    (hN1 : 2 ≤ hashes.length) (hN2 : hashes.length ≤ 16)
    (hpres : ∀ x ∈ hashes, x ≠ none) (hi : hashes[i]? = some target) :
    ∃ t pos sib, BuildMerkleTree dh hashes = .ok t ∧
      NodesForVerify target t = .ok (some (pos, sib)) ∧
      VerifyLeafToRoot dh target pos sib = .ok true := by
  obtain ⟨t, m, hrun, hm, hle, hlen, hflat, hpad, hpar⟩ :=
    BuildMerkleTree_layout dh hashes (by omega)
  obtain ⟨m', hm', -, hmin⟩ := nextPowerOfTwo_least hashes.length (by omega)
  have hmm : m = m' := Nat.pow_right_injective (le_refl 2) (hm.symm.trans hm')
  subst hmm
  have hm4 : m ≤ 4 := hmin 4 (by norm_num; omega)
  have hm1 : 1 ≤ m := by
    rcases Nat.eq_zero_or_pos m with h | h
    · subst h
      simp at hle
      omega
    · exact h
  have hiN : i < hashes.length := by
    by_contra hge
    rw [List.getElem?_eq_none (by omega)] at hi
    cases hi
  have hmem : target ∈ hashes := by
    rw [List.getElem?_eq_getElem hiN] at hi
    injection hi with hi
    rw [← hi]
    exact List.getElem_mem _
  obtain ⟨x, rfl⟩ : ∃ x, target = some x := by
    cases target with
    | none => exact absurd rfl (hpres none hmem)
    | some x => exact ⟨x, rfl⟩
  have hleft : ∀ j, t.getD (2 * j + 1) none ≠ none → t.getD (2 * j) none ≠ none := by
    intro j hj
    rw [hflat] at hj ⊢
    exact flatTree_left_present dh m _ hpad (prefix_padLeaves hashes (2 ^ m) hpres) j hj
  have hti : t[i]? = some (some x) := by
    obtain ⟨k, rfl⟩ : ∃ k, m = k + 1 := ⟨m - 1, by omega⟩
    rw [hflat, flatTree, List.getElem?_append_left (by rw [hpad]; omega), padLeaves,
      List.getElem?_append_left hiN, hi]
  obtain ⟨t0, ht0, hfind, hget, -⟩ := findTarget_first (some x) t 0 i hti
  rw [Nat.zero_add] at hfind
  have hx : t.getD t0 none = some x := by
    rw [List.getD_eq_getElem?_getD, hget]
    rfl
  have hnodes : NodesForVerify (some x) t =
      match nodesFromIndex t t0 with
      | .error e => .error e
      | .ok proof => .ok (some proof) := by
    unfold NodesForVerify
    rw [hfind]
  have hP : t0 + 2 ≤ 2 * 2 ^ m := by omega
  have hver := VerifyLeafToRoot_flatPath dh (2 ^ m) t hpar hleft t0 x hP hx
  have ht0P : t0 < 2 ^ m := by omega
  interval_cases m
  · exact ⟨t, _, _, hrun, by rw [hnodes, nodesFromIndex_width_2 t hlen t0 ht0P]; rfl, hver⟩
  · exact ⟨t, _, _, hrun, by rw [hnodes, nodesFromIndex_width_4 t hlen t0 ht0P]; rfl, hver⟩
  · exact ⟨t, _, _, hrun, by rw [hnodes, nodesFromIndex_width_8 t hlen t0 ht0P]; rfl, hver⟩
  · exact ⟨t, _, _, hrun, by rw [hnodes, nodesFromIndex_width_16 t hlen t0 ht0P]; rfl, hver⟩

theorem roundTrip_small_witness :
    2 ≤ sampleLeaves.length ∧ sampleLeaves.length ≤ 16 ∧ (∀ x ∈ sampleLeaves, x ≠ none) ∧
    sampleLeaves[2]? = some (some (Digest.leaf 2)) ∧
    ∃ t pos sib, BuildMerkleTree Digest.node sampleLeaves = .ok t ∧
      NodesForVerify (some (Digest.leaf 2)) t = .ok (some (pos, sib)) ∧
      VerifyLeafToRoot Digest.node (some (Digest.leaf 2)) pos sib = .ok true :=
  ⟨by decide, by decide, by decide, by rfl,
    roundTrip_small Digest.node sampleLeaves (some (Digest.leaf 2)) 2 (by decide) (by decide)
      (by decide) (by rfl)⟩


/-- The level loop of `NodesForVerify`, started at `i ≥ 1`, leaves the first
recorded position as it is. -/
theorem walkLoop_head {Hash : Type} (merkles : List (Option Hash)) (num nl : Nat)
    (fuel : Nat) : ∀ (i : Nat) (st st' : WalkState Hash), 1 ≤ i →
    walkLoop merkles num nl fuel i st = .ok st' →
      st'.indexesOfVerifyNodes[0]? = st.indexesOfVerifyNodes[0]? := by
  induction fuel with
  | zero =>
    intro i st st' _ h
    rw [walkLoop] at h
    split at h
    · cases h
    · injection h with h
      subst h
      rfl
  | succ f ih =>
    intro i st st' hi h
    rw [walkLoop] at h
    split at h
    · split at h
      · cases h
      · split at h
        · cases h
        · split at h
          · cases h
          · split at h
            · cases h
            · rename_i ix hix
              split at h
              · cases h
              · split at h
                · cases h
                · split at h
                  · cases h
                  · split at h
                    · cases h
                    · have h1 := ih _ _ _ (by omega) h
                      have h2 := setAt_ok _ _ _ _ hix
                      simp only at h1
                      rw [h1, h2.2, List.getElem?_set_ne (by omega)]
    · injection h with h
      subst h
      rfl

/-- The first position that the part of `NodesForVerify` after the search returns
is the pair partner of the index it starts from, when the tree has at least two
levels. -/
theorem nodesFromIndex_first {Hash : Type} (merkles : List (Option Hash)) (t0 : Nat)
    (pos : List Int) (sib : List (Option Hash)) (hnum : 2 ≤ Log2 (merkles.length + 1))
    (h : nodesFromIndex merkles t0 = .ok (pos, sib)) :
    pos[0]? = some ((if t0 % 2 = 0 then t0 + 1 else t0 - 1 : Nat) : Int) := by
  unfold nodesFromIndex at h
  dsimp only at h
  split at h
  · cases h
  · rename_i ix0 hix0
    split at h
    · cases h
    · split at h
      · cases h
      · rename_i vn0 hvn0
        split at h
        · cases h
        · rename_i st hst
          split at h
          · cases h
          · rename_i ix hix
            split at h
            · cases h
            · split at h
              · cases h
              · injection h with h
                injection h with hp hs
                subst hp hs
                have a0 := setAt_ok _ _ _ _ hix0
                have a1 := setAt_ok _ _ _ _ hix
                have hhead : st.indexesOfVerifyNodes[0]? = ix0[0]? := by
                  split at hst
                  · split at hst
                    · cases hst
                    · exact walkLoop_head _ _ _ _ _ _ _ (le_refl 1) hst
                  · injection hst with hst
                    subst hst
                    rfl
                rw [a1.2, List.getElem?_set_ne (by omega), hhead, a0.2,
                  List.getElem?_set_self a0.1]

/-- First match wins where a proof is returned. For every tree built from `N ≥ 2`
leaves and a target whose lowest matching leaf index is `t0`, the search of
`NodesForVerify` stops at `t0`; every proof it returns has as first position
`t0 + 1` when `t0` is even and `t0 - 1` when `t0` is odd; and for `N ≤ 16` it does
return a proof. -/
theorem first_match_wins {Hash : Type} [DecidableEq Hash] (dh : Hash → Hash → Hash)
    (hashes : List (Option Hash)) (target : Option Hash) (t0 : Nat)
    (hN : 2 ≤ hashes.length) (h0 : hashes[t0]? = some target)
    (hfirst : ∀ j, j < t0 → hashes[j]? ≠ some target) :
    ∃ t, BuildMerkleTree dh hashes = .ok t ∧ findTarget target 0 t = some t0 ∧
      (∀ pos sib, NodesForVerify target t = .ok (some (pos, sib)) →
        pos[0]? = some ((if t0 % 2 = 0 then t0 + 1 else t0 - 1 : Nat) : Int)) ∧
      (hashes.length ≤ 16 → ∃ pos sib, NodesForVerify target t = .ok (some (pos, sib))) := by
  obtain ⟨t, hrun, hlen, hleaf, -⟩ := BuildMerkleTree_spec dh hashes (by omega)
  obtain ⟨m, hm, hle, hmin⟩ := nextPowerOfTwo_least hashes.length (by omega)
  rw [hm] at hlen hleaf
  have hpos : 0 < 2 ^ m := Nat.two_pow_pos m
  have hm1 : 1 ≤ m := by
    rcases Nat.eq_zero_or_pos m with h | h
    · subst h
      simp at hle
      omega
    · exact h
  have ht0N : t0 < hashes.length := by
    by_contra hge
    rw [List.getElem?_eq_none (by omega)] at h0
    cases h0
  have hseg : ∀ j, j < hashes.length → t[j]? = hashes[j]? := by
    intro j hj
    have : (t.take (2 ^ m))[j]? = hashes[j]? := by
      rw [hleaf, padLeaves, List.getElem?_append_left hj]
    rwa [List.getElem?_take_of_lt (by omega)] at this
  obtain ⟨t1, ht1, hfind, hget, -⟩ := findTarget_first target t 0 t0 (by rw [hseg t0 ht0N, h0])
  rw [Nat.zero_add] at hfind
  have heq : t1 = t0 := by
    by_contra hne
    exact hfirst t1 (by omega) (by rw [← hseg t1 (by omega), hget])
  subst heq
  have hnodes : NodesForVerify target t =
      match nodesFromIndex t t1 with
      | .error e => .error e
      | .ok proof => .ok (some proof) := by
    unfold NodesForVerify
    rw [hfind]
  have hnum : 2 ≤ Log2 (t.length + 1) := by
    have e : t.length + 1 = 2 ^ (m + 1) := by rw [hlen, pow_succ]; omega
    rw [e, Log2_two_pow]
    omega
  refine ⟨t, hrun, hfind, ?_, ?_⟩
  · intro pos sib hret
    rw [hnodes] at hret
    split at hret
    · cases hret
    · rename_i proof hproof
      injection hret with hret
      injection hret with hret
      subst hret
      exact nodesFromIndex_first t t1 _ _ hnum hproof
  · intro h16
    have hm4 : m ≤ 4 := hmin 4 (by norm_num; omega)
    have ht1P : t1 < 2 ^ m := by omega
    rw [hnodes]
    interval_cases m
    · rw [nodesFromIndex_width_2 t hlen t1 ht1P]; exact ⟨_, _, rfl⟩
    · rw [nodesFromIndex_width_4 t hlen t1 ht1P]; exact ⟨_, _, rfl⟩
    · rw [nodesFromIndex_width_8 t hlen t1 ht1P]; exact ⟨_, _, rfl⟩
    · rw [nodesFromIndex_width_16 t hlen t1 ht1P]; exact ⟨_, _, rfl⟩

/-! ## First match on a tree of 33 to 64 leaves: claim C16 -/

/-- C16, at an input where the code leaves it: 33 to 64 leaves with the target at
leaf index 0 and at a further leaf index `i`. The search stops at index 0, the
lowest match, but `NodesForVerify` returns no proof for it: it panics with an index
out of range at level 5. -/
theorem first_match_no_proof {Hash : Type} [DecidableEq Hash]
    (dh : Hash → Hash → Hash) (hashes : List (Option Hash)) (target : Option Hash) (i : Nat)
    (hN1 : 33 ≤ hashes.length) (hN2 : hashes.length ≤ 64)
    (h0 : hashes[0]? = some target) (_hi : 0 < i) (_hi2 : hashes[i]? = some target) :
    ∃ t, BuildMerkleTree dh hashes = .ok t ∧ findTarget target 0 t = some 0 ∧
      NodesForVerify target t = .error .indexOutOfRange ∧
      ∀ pos sib, NodesForVerify target t ≠ .ok (some (pos, sib)) := by
  obtain ⟨t, hrun, hlen, hleaf, -⟩ := BuildMerkleTree_spec dh hashes (by omega)
  rw [nextPowerOfTwo_of_33_64 _ hN1 hN2] at hlen hleaf
  have hlen127 : t.length = 127 := hlen
  have hhead : t[0]? = some target := by
    have : (t.take 64)[0]? = some target := by
      rw [hleaf, padLeaves, List.getElem?_append_left (by omega), h0]
    rwa [List.getElem?_take_of_lt (by norm_num)] at this
  obtain ⟨rest, rfl⟩ : ∃ rest, t = target :: rest := by
    match t, hhead with
    | x :: rest, hx =>
      simp at hx
      exact ⟨rest, by rw [hx]⟩
  have hpanic : NodesForVerify target (target :: rest) = .error .indexOutOfRange := by
    unfold NodesForVerify
    rw [findTarget_head]
    simp only [nodesFromIndex_127 _ hlen127]
  refine ⟨_, hrun, findTarget_head target rest, hpanic, ?_⟩
  intro pos sib h
  rw [hpanic] at h
  cases h

theorem first_match_no_proof_witness :
    33 ≤ (List.replicate 40 (some (Digest.leaf 3))).length ∧
    (List.replicate 40 (some (Digest.leaf 3))).length ≤ 64 ∧
    (List.replicate 40 (some (Digest.leaf 3)))[0]? = some (some (Digest.leaf 3)) ∧
    0 < 7 ∧
    (List.replicate 40 (some (Digest.leaf 3)))[7]? = some (some (Digest.leaf 3)) ∧
    ∃ t, BuildMerkleTree Digest.node (List.replicate 40 (some (Digest.leaf 3))) = .ok t ∧
      findTarget (some (Digest.leaf 3)) 0 t = some 0 ∧
      NodesForVerify (some (Digest.leaf 3)) t = .error .indexOutOfRange ∧
      ∀ pos sib, NodesForVerify (some (Digest.leaf 3)) t ≠ .ok (some (pos, sib)) :=
  ⟨by decide, by decide, by rfl, by decide, by rfl,
    first_match_no_proof Digest.node (List.replicate 40 (some (Digest.leaf 3)))
      (some (Digest.leaf 3)) 7 (by decide) (by decide) (by rfl) (by decide) (by rfl)⟩

end Merkle
